import Mathlib

/-!
# gPb filter library (`cv_lib_filters.cc`): a shallow embedding

The C++ source works on `cv::Mat` arrays of `float`/`double`.  In this
development

* a `cv::Mat` is a record of its two extents and its row-major entries;
* real arithmetic is exact (`ℚ`): rounding of `float`/`double` is not part of
  the embedding, and a division by zero (which the C++ turns into `inf`/`NaN`)
  is an explicit `none`; the one exception are the definitions with the suffix
  `_fl64`, which round the `double` additions of the orientation list and the
  `double` subtraction of the slice test the way IEEE 754 fixes them;
* an exception raised by an OpenCV assertion is `none` as well;
* the transcendental routines of `libm` (`exp`, `cos`, `sin`, `atan2`) and the
  interpolating image warp of OpenCV are parameters, gathered in `Prims`;
  theorems state as hypotheses the few values of these routines they rely on;
* the `dft → mulSpectrums → inverse dft` pipeline of OpenCV on rows padded to a
  common length `N` is its mathematical meaning, the cyclic convolution of
  length `N`; the residue that the `float` transforms leave in a bin whose
  exact value is 0 is not part of the embedding, and no statement is made that
  turns on it (the sign of such a bin, or whether a smoothed histogram sums to
  exactly 0).
-/

set_option autoImplicit false
set_option linter.unusedVariables false

namespace GPb

/-! ## Matrices -/

/-- A `cv::Mat` with one channel: extents and row-major entries. -/
structure Mat where
  rows : ℕ
  cols : ℕ
  data : List ℚ
deriving DecidableEq

namespace Mat

/-- Entry `(i, j)`, the `m.at<T>(i, j)` of the source. -/
def get (m : Mat) (i j : ℕ) : ℚ := m.data.getD (i * m.cols + j) 0

/-- The `R × C` matrix whose entry `(i, j)` is `f i j`. -/
def tabulate (R C : ℕ) (f : ℕ → ℕ → ℚ) : Mat :=
  ⟨R, C, (List.range R).flatMap fun i => (List.range C).map fun j => f i j⟩

/-- A `1 × n` row holding the entries of `l`. -/
def ofRow (l : List ℚ) : Mat := ⟨1, l.length, l⟩

/-- Transposition, `cv::transpose`. -/
def transpose (m : Mat) : Mat := tabulate m.cols m.rows fun i j => m.get j i

end Mat

/-! ## Flags of the header `cv_lib_filters.hh` and numeric constants -/

/-- Modelled from the spec: the header `cv_lib_filters.hh` that defines the flag
macros is not among the sources; the spec describes each `label` argument as a
binary choice (same-size vs expand, radians vs degrees, zero vs non-zero mean),
and every use in the source has the shape `label ? SAME_SIZE : EXPAND_SIZE`,
so the first macro of each pair is the true value. -/
def SAME_SIZE : Bool := true
/-- Modelled from the spec: see `SAME_SIZE`. -/
def EXPAND_SIZE : Bool := false
/-- Modelled from the spec: see `SAME_SIZE`. -/
def RAD : Bool := true
/-- Modelled from the spec: see `SAME_SIZE`. -/
def DEG : Bool := false
/-- Modelled from the spec: see `SAME_SIZE`. -/
def ZERO : Bool := true
/-- Modelled from the spec: see `SAME_SIZE`. -/
def NON_ZERO : Bool := false
/-- Modelled from the spec: see `SAME_SIZE`. -/
def X_ORI : Bool := true
/-- Modelled from the spec: see `SAME_SIZE`. -/
def Y_ORI : Bool := false
/-- Modelled from the spec: see `SAME_SIZE`. -/
def HILBRT_ON : Bool := true
/-- Modelled from the spec: see `SAME_SIZE`. -/
def HILBRT_OFF : Bool := false
/-- Modelled from the spec: see `SAME_SIZE`. -/
def OE_EVEN : Bool := true
/-- Modelled from the spec: see `SAME_SIZE`. -/
def OE_ODD : Bool := false

/-- The constant `M_PI` of `math.h`: the `double` nearest to π, which is the
rational `884279719003555 / 2^48`. -/
def M_PI : ℚ := 884279719003555 / 281474976710656

/-- The constant `M_SQRT2` of `math.h`: the `double` nearest to the square root
of 2, which is the rational `6369051672525773 / 2^52`. -/
def M_SQRT2 : ℚ := 6369051672525773 / 4503599627370496

/-- The routines of `libm` and OpenCV that the source calls and that have no
rational closed form. `warpAffine input cx cy angle` stands for
`cv::warpAffine(input, tmp, cv::getRotationMatrix2D((cx, cy), angle, 1.0),
input.size(), cv::INTER_LINEAR)`. -/
structure Prims where
  exp : ℚ → ℚ
  cos : ℚ → ℚ
  sin : ℚ → ℚ
  atan2 : ℚ → ℚ → ℚ
  warpAffine : Mat → ℤ → ℤ → ℚ → Mat

/-- The C conversion `int(x)` of a real: truncation toward zero. -/
def cint (x : ℚ) : ℤ := if 0 ≤ x then ⌊x⌋ else ⌈x⌉

/-! ## `convolveDFT` -/

/-- Divide `n` by `p` as long as it is divisible. -/
def divOut (p : ℕ) : ℕ → ℕ → ℕ
  | 0, n => n
  | fuel + 1, n => if n ≠ 0 ∧ n % p = 0 then divOut p fuel (n / p) else n

/-- Whether `n` is a product of powers of 2, 3 and 5. -/
def isSmooth5 (n : ℕ) : Bool := divOut 5 n (divOut 3 n (divOut 2 n n)) == 1

/-- Linear search for the first number `≥ n` that is a product of 2s, 3s, 5s. -/
def optSearch : ℕ → ℕ → ℕ
  | 0, n => n
  | fuel + 1, n => if isSmooth5 n then n else optSearch fuel (n + 1)

/-- OpenCV's `cv::getOptimalDFTSize`: the least number `≥ vecsize` of the form
`2^a * 3^b * 5^c`, and `-1` for a negative argument (the table's upper end,
about `2^31`, is not part of the embedding). A power of two lies in
`[n, 2n)`, so `n` steps of search are enough. -/
def getOptimalDFTSize (vecsize : ℤ) : ℤ :=
  if vecsize < 0 then -1 else (optSearch vecsize.toNat (max vecsize.toNat 1) : ℕ)

/-- Cyclic convolution of length `N` of two rows, each zero-padded to `N`
entries: what `dft`, `mulSpectrums` and the scaled inverse `dft` compute, up to
the rounding of the `float` transforms. Where the exact value of a bin is 0 the
source holds a rounding residue of either sign instead; that residue is not
part of the embedding. -/
def cconv (N : ℕ) (A B : List ℚ) : List ℚ :=
  (List.range N).map fun k =>
    ((List.range N).map fun i => A.getD i 0 * B.getD ((k + N - i) % N) 0).sum

/-- The function `convolveDFT` for single-row inputs (the shape of every call in
the source). `copyMakeBorder` pads each row on the right by `width - cols - 1`
and raises an assertion for a negative amount; `mulSpectrums` raises one when
the two arrays differ in size, which after the padding means a different
number of rows. Inputs with the same number of rows, more than one, are outside
the embedding; the test on the rows gives `none` for both. -/
def convolveDFT (inputA inputB : Mat) (label : Bool) : Option Mat :=
  let flag := if label then SAME_SIZE else EXPAND_SIZE
  let r := inputA.rows
  let c := inputA.cols
  let width := getOptimalDFTSize ((inputA.cols : ℤ) + inputB.cols - 1)
  if width - inputA.cols - 1 < 0 ∨ width - inputB.cols - 1 < 0 then none
  else if inputA.rows ≠ 1 ∨ inputB.rows ≠ 1 then none
  else
    let N := (width - 1).toNat
    let TempA : Mat := ⟨1, N, cconv N inputA.data inputB.data⟩
    if flag then
      let W_o := (TempA.cols - c) / 2
      some ⟨r, c, (TempA.data.drop W_o).take c⟩
    else
      some TempA

/-! ## `hilbertTransform1D` -/

/-- The kernel built by the loop of `hilbertTransform1D`. -/
def hilbertKernel (length : ℕ) : Mat :=
  let half_len : ℤ := ((length : ℤ) - 1).tdiv 2
  Mat.tabulate 1 length fun _ (i : ℕ) =>
    let m : ℤ := (i : ℤ) - half_len
    if m.tmod 2 = 0 then 0 else 1 / (M_PI * (m : ℚ))

/-- The function `hilbertTransform1D`. The message printed for an input that is
neither a row nor a column has no effect on the result and is left out. -/
def hilbertTransform1D (input : Mat) (label : Bool) : Option Mat :=
  let temp := input
  let length := if temp.rows > temp.cols then temp.rows else temp.cols
  let temp := if input.cols = 1 then temp.transpose else temp
  let hilbert := hilbertKernel length
  match convolveDFT temp hilbert label with
  | none => none
  | some temp => some (if input.cols = 1 then temp.transpose else temp)

/-! ## `standard_filter_orientations` -/

/-- The loop `for (i = 0; i < n; i++, ori += ori_step) oris[i] = ori`. -/
def oriLoop : ℕ → ℚ → ℚ → List ℚ
  | 0, _, _ => []
  | k + 1, ori, ori_step => ori :: oriLoop k (ori + ori_step) ori_step

/-- The function `standard_filter_orientations`. -/
def standard_filter_orientations (n_ori : ℕ) (label : Bool) : List ℚ :=
  let flag := if label then RAD else DEG
  if flag then
    let ori_step : ℚ := if n_ori > 0 then M_PI / n_ori else 0
    oriLoop n_ori 0 ori_step
  else
    let ori_step : ℚ := if n_ori > 0 then 180 / n_ori else 0
    oriLoop n_ori 0 ori_step

/-! ## `normalizeDistr` -/

/-- The function `normalizeDistr`. When the sum of absolute values is zero the
source multiplies every (zero) entry by `1.0/0.0`, which yields `NaN`s: that
outcome is `none`. -/
def normalizeDistr (input : Mat) (label : Bool) : Option Mat :=
  let flag := if label then ZERO else NON_ZERO
  let output := input
  let output : Mat :=
    if flag then
      let mean : ℚ := output.data.sum / ((output.rows * output.cols : ℕ) : ℚ)
      ⟨output.rows, output.cols, output.data.map fun v => v * 1 + 1 * (-mean) + 0⟩
    else output
  let sumAbs : ℚ := (output.data.map fun v => |v|).sum
  if sumAbs = 0 then none
  else some ⟨output.rows, output.cols, output.data.map fun v => (1 / sumAbs) * v / 1⟩

/-! ## Gaussian filters -/

/-- The table `small_gaussian_tab` of OpenCV's `getGaussianKernel`. -/
def small_gaussian_tab : List (List ℚ) :=
  [[1], [1/4, 1/2, 1/4], [1/16, 1/4, 3/8, 1/4, 1/16],
   [1/32, 7/64, 7/32, 9/32, 7/32, 7/64, 1/32]]

/-- OpenCV's `cv::getGaussianKernel(n, sigma, CV_32F)`: the entries of the
`n × 1` column. -/
def getGaussianKernel (P : Prims) (n : ℕ) (sigma : ℚ) : List ℚ :=
  let fixed : Bool := n % 2 = 1 ∧ n ≤ 7 ∧ sigma ≤ 0
  let sigmaX : ℚ := if sigma > 0 then sigma else (((n : ℚ) - 1) * (1/2) - 1) * (3/10) + 8/10
  let scale2X : ℚ := -(1/2) / (sigmaX * sigmaX)
  let cf : List ℚ := (List.range n).map fun (i : ℕ) =>
    let x : ℚ := (i : ℚ) - ((n : ℚ) - 1) * (1/2)
    if fixed then (small_gaussian_tab.getD (n / 2) []).getD i 0 else P.exp (scale2X * x * x)
  let sum : ℚ := 1 / cf.sum
  cf.map fun v => v * sum

/-- The function `gaussianFilter1D` with an explicit half-length. The result is
the `len × 1` column of the source. -/
def gaussianFilter1D (P : Prims) (half_len : ℕ) (sigma : ℚ) (deriv : ℕ) (label : Bool) :
    Option Mat :=
  let hlbrt := if label then HILBRT_ON else HILBRT_OFF
  let len := 2 * half_len + 1
  let g := getGaussianKernel P len sigma
  let output : Mat :=
    if deriv = 1 then
      ⟨len, 1, (List.range len).map fun (i : ℕ) => g.getD i 0 * ((half_len : ℚ) - (i : ℚ))⟩
    else if deriv = 2 then
      ⟨len, 1, (List.range len).map fun (i : ℕ) =>
        let x : ℚ := (i : ℚ) - (half_len : ℚ)
        g.getD i 0 * (x * x / sigma - 1)⟩
    else ⟨len, 1, g⟩
  let transformed : Option Mat :=
    if hlbrt then hilbertTransform1D output SAME_SIZE else some output
  match transformed with
  | none => none
  | some output =>
    if deriv > 0 then normalizeDistr output ZERO else normalizeDistr output NON_ZERO

/-- The overload of `gaussianFilter1D` that derives `half_len = int(sigma * 3.0)`;
a negative length makes the matrix constructors fail. -/
def gaussianFilter1D_sigma (P : Prims) (sigma : ℚ) (deriv : ℕ) (hlbrt : Bool) : Option Mat :=
  let half_len := cint (sigma * 3)
  if half_len < 0 then none else gaussianFilter1D P half_len.toNat sigma deriv hlbrt

/-- The function `supportRotated`. -/
def supportRotated (P : Prims) (x y : ℤ) (ori : ℚ) (label : Bool) : ℤ :=
  let flag := if label then X_ORI else Y_ORI
  let cos_ori : ℚ := if flag then (x : ℚ) * P.cos ori else (y : ℚ) * P.cos ori
  let sin_ori : ℚ := if flag then (y : ℚ) * P.sin ori else (x : ℚ) * P.sin ori
  let mag0 := |cos_ori - sin_ori|
  let mag1 := |cos_ori + sin_ori|
  cint ((if mag0 > mag1 then mag0 else mag1) + 1)

/-- The function `rotate_2D_crop`. Taking the sub-matrix `tmp(cROI)` raises an
assertion unless the rectangle lies inside `tmp`. -/
def rotate_2D_crop (P : Prims) (input : Mat) (ori : ℚ) (len_cols len_rows : ℤ)
    (label : Bool) : Option Mat :=
  let flag := if label then RAD else DEG
  let cx : ℤ := ((input.cols : ℤ) - 1).tdiv 2
  let cy : ℤ := ((input.rows : ℤ) - 1).tdiv 2
  let angle : ℚ := if flag then ori / M_PI * 180 else ori
  let tmp := P.warpAffine input cx cy angle
  let border_rows : ℤ := ((input.rows : ℤ) - len_rows).tdiv 2
  let border_cols : ℤ := ((input.cols : ℤ) - len_cols).tdiv 2
  if 0 ≤ border_cols ∧ 0 ≤ len_cols ∧ border_cols + len_cols ≤ tmp.cols ∧
      0 ≤ border_rows ∧ 0 ≤ len_rows ∧ border_rows + len_rows ≤ tmp.rows then
    some (Mat.tabulate len_rows.toNat len_cols.toNat fun i j =>
      tmp.get (border_rows.toNat + i) (border_cols.toNat + j))
  else none

/-- The function `gaussianFilter2D` with an explicit half-length. -/
def gaussianFilter2D (P : Prims) (half_len : ℕ) (ori sigma_x sigma_y : ℚ) (deriv : ℕ)
    (hlbrt : Bool) : Option Mat :=
  let len : ℤ := 2 * (half_len : ℤ) + 1
  let half_len_rotate_x := supportRotated P half_len half_len ori X_ORI
  let half_len_rotate_y := supportRotated P half_len half_len ori Y_ORI
  let half_rotate_len : ℤ :=
    if half_len_rotate_x > half_len_rotate_y then half_len_rotate_x else half_len_rotate_y
  if half_rotate_len < 0 then none
  else
    match gaussianFilter1D P half_rotate_len.toNat sigma_x 0 HILBRT_OFF,
          gaussianFilter1D P half_rotate_len.toNat sigma_y deriv hlbrt with
    | some output_x, some output_y =>
      let output : Mat :=
        Mat.tabulate output_x.rows output_y.rows fun i j => output_x.get i 0 * output_y.get j 0
      match rotate_2D_crop P output ori len len DEG with
      | none => none
      | some output =>
        if deriv > 0 then normalizeDistr output ZERO else normalizeDistr output NON_ZERO
    | _, _ => none

/-- The overload of `gaussianFilter2D` that derives the half-length from the
two sigmas. -/
def gaussianFilter2D_sigma (P : Prims) (ori sigma_x sigma_y : ℚ) (deriv : ℕ) (hlbrt : Bool) :
    Option Mat :=
  let half_len_x := cint (sigma_x * 3)
  let half_len_y := cint (sigma_y * 3)
  let half_len := if half_len_x > half_len_y then half_len_x else half_len_y
  if half_len < 0 then none
  else gaussianFilter2D P half_len.toNat ori sigma_x sigma_y deriv hlbrt

/-- All results, or `none` as soon as one computation failed. -/
def collect {α : Type} : List (Option α) → Option (List α)
  | [] => some []
  | none :: _ => none
  | some a :: rest =>
    match collect rest with
    | none => none
    | some as => some (a :: as)

/-- The function `gaussianFilters`: one filter per standard orientation. -/
def gaussianFilters (P : Prims) (n_ori : ℕ) (sigma : ℚ) (deriv : ℕ) (hlbrt : Bool)
    (enlongation : ℚ) : Option (List Mat) :=
  let sigma_x := sigma
  let sigma_y := sigma / enlongation
  let oris := standard_filter_orientations n_ori DEG
  collect (oris.map fun ori => gaussianFilter2D_sigma P ori sigma_x sigma_y deriv hlbrt)

/-- The function `gaussianFilter2D_cs` with an explicit half-length.
`cv::addWeighted` raises an assertion when its two inputs differ in size. -/
def gaussianFilter2D_cs (P : Prims) (half_len : ℕ) (sigma_x sigma_y scale_factor : ℚ) :
    Option Mat :=
  let sigma_x_c := sigma_x / scale_factor
  let sigma_y_c := sigma_y / scale_factor
  match gaussianFilter2D P half_len 0 sigma_x_c sigma_y_c 0 HILBRT_OFF,
        gaussianFilter2D P half_len 0 sigma_x sigma_y 0 HILBRT_OFF with
  | some output_cen, some output_sur =>
    if output_sur.rows = output_cen.rows ∧ output_sur.cols = output_cen.cols then
      normalizeDistr
        ⟨output_sur.rows, output_sur.cols,
          List.zipWith (fun s c => s * 1 + c * (-1) + 0) output_sur.data output_cen.data⟩
        ZERO
    else none
  | _, _ => none

/-- The overload of `gaussianFilter2D_cs` that derives the half-length from the
two sigmas. -/
def gaussianFilter2D_cs_sigma (P : Prims) (sigma_x sigma_y scale_factor : ℚ) : Option Mat :=
  let half_len_x := cint (sigma_x * 3)
  let half_len_y := cint (sigma_y * 3)
  let half_len := if half_len_x > half_len_y then half_len_x else half_len_y
  if half_len < 0 then none
  else gaussianFilter2D_cs P half_len.toNat sigma_x sigma_y scale_factor

/-- The function `oeFilters`. -/
def oeFilters (P : Prims) (n_ori : ℕ) (sigma : ℚ) (label : Bool) : Option (List Mat) :=
  let flag := if label then OE_EVEN else OE_ODD
  if flag then gaussianFilters P n_ori sigma 2 HILBRT_OFF 3
  else gaussianFilters P n_ori sigma 2 HILBRT_ON 3

/-- The function `textonFilters`: entries `0 .. n-1` are the even filters,
`n .. 2n-1` the odd filters and entry `2n` the centre-surround filter. -/
def textonFilters (P : Prims) (n_ori : ℕ) (sigma : ℚ) : Option (List Mat) :=
  match oeFilters P n_ori sigma OE_EVEN, oeFilters P n_ori sigma OE_ODD,
        gaussianFilter2D_cs_sigma P sigma sigma M_SQRT2 with
  | some even_filters, some odd_filters, some f_cs => some (even_filters ++ odd_filters ++ [f_cs])
  | _, _, _ => none

/-! ## The oriented gradient of histograms -/

/-- The function `weight_matrix_disc`; the entries of the `CV_32SC1` array are
held as rationals. -/
def weight_matrix_disc (r : ℕ) : Mat :=
  let size := 2 * r + 1
  let r_sq : ℤ := (r : ℤ) * r
  Mat.tabulate size size fun (i j : ℕ) =>
    let x_sq : ℤ := ((i : ℤ) - r) * ((i : ℤ) - r)
    let y_sq : ℤ := ((j : ℤ) - r) * ((j : ℤ) - r)
    if i = r ∧ j = r then 0
    else if x_sq + y_sq ≤ r_sq then 1 else 0

/-- The function `orientation_slice_map`: row `i` has `y = size/2 - i`, column
`j` has `x = -size/2 + j` (C integer division). -/
def orientation_slice_map (P : Prims) (r n_ori : ℕ) : Mat :=
  let size : ℤ := 2 * (r : ℤ) + 1
  Mat.tabulate (2 * r + 1) (2 * r + 1) fun (i j : ℕ) =>
    let y : ℤ := size.tdiv 2 - i
    let x : ℤ := (-size).tdiv 2 + j
    let ori : ℚ := P.atan2 (y : ℚ) (x : ℚ)
    ori / M_PI * 180

/-- The loop of OpenCV's `borderInterpolate` for `BORDER_REFLECT`:
`do { if (p < 0) p = -p - 1; else p = len - 1 - (p - len); } while (p ∉ [0, len))`. -/
def borderLoop : ℕ → ℤ → ℤ → ℤ
  | 0, p, _ => p
  | fuel + 1, p, len =>
    let p1 := if p < 0 then -p - 1 else len - 1 - (p - len)
    if 0 ≤ p1 ∧ p1 < len then p1 else borderLoop fuel p1 len

/-- OpenCV's `borderInterpolate(p, len, BORDER_REFLECT)`. Each round of the loop
brings `p` closer to the range, so `|p| + 1` rounds are enough. -/
def borderInterpolate (p len : ℤ) : ℤ :=
  if 0 ≤ p ∧ p < len then p
  else if len = 1 then 0
  else borderLoop (p.natAbs + 1) p len

/-- The array that OpenCV's `copyMakeBorder(src, dst, top, bottom, left, right,
BORDER_REFLECT)` builds from a non-empty source. -/
def reflectPad (src : Mat) (top bottom left right : ℕ) : Mat :=
  Mat.tabulate (src.rows + top + bottom) (src.cols + left + right) fun (i j : ℕ) =>
    src.get (borderInterpolate ((i : ℤ) - top) src.rows).toNat
      (borderInterpolate ((j : ℤ) - left) src.cols).toNat

/-- OpenCV's `copyMakeBorder(src, dst, top, bottom, left, right, BORDER_REFLECT)`.
For an empty source and a non-zero border, `borderInterpolate` is called with
`len = 0`, where its loop has no exit (later versions assert `len > 0`): no
result. -/
def copyMakeBorder_reflect (src : Mat) (top bottom left right : ℕ) : Option Mat :=
  if (src.rows = 0 ∨ src.cols = 0) ∧ 0 < top + bottom + left + right then none
  else some (reflectPad src top bottom left right)

/-- The update `hist.at<float>(0, bin) += w`; a bin outside the histogram is an
out-of-bounds write in the source and `none` here. -/
def histAdd (hist : List ℚ) (bin : ℤ) (w : ℚ) : Option (List ℚ) :=
  if 0 ≤ bin ∧ bin < hist.length then
    some (hist.set bin.toNat (hist.getD bin.toNat 0 + w))
  else none

/-- The offsets `(x + r, y + r)` in the order of the loops
`for (x = -r; x <= r; x++) for (y = -r; y <= r; y++)`. -/
def discOffsets (r : ℕ) : List (ℕ × ℕ) :=
  (List.range (2 * r + 1)).flatMap fun u => (List.range (2 * r + 1)).map fun v => (u, v)

/-- The test of `gradient_hist_2D` that sends an offset to the right histogram,
with the subtraction `oris[idx]-180.0` exact, like the arithmetic of the
embedding at large. `inRightHalf_fl64` is the same test with that subtraction
rounded to a `double`; the two differ only at an orientation `ori` for which
`ori - 180` is not a `double`. -/
def inRightHalf (slice_map : Mat) (ori : ℚ) (u v : ℕ) : Bool :=
  slice_map.get u v > ori - 180 ∧ slice_map.get u v ≤ ori

/-- One round of the histogram loop of `gradient_hist_2D` at the pixel `(i, j)`
of the padded label map, for the offset `(x, y) = (u - r, v - r)`. The state is
`(hist_left, hist_right)`. -/
def histStep (label_exp weights slice_map : Mat) (r : ℕ) (ori : ℚ) (i j : ℕ)
    (st : List ℚ × List ℚ) (o : ℕ × ℕ) : Option (List ℚ × List ℚ) :=
  let bin : ℤ := cint (label_exp.get (i + o.1 - r) (j + o.2 - r))
  if inRightHalf slice_map ori o.1 o.2 then
    match histAdd st.2 bin (weights.get o.1 o.2) with
    | none => none
    | some hr => some (st.1, hr)
  else
    match histAdd st.1 bin (weights.get o.1 o.2) with
    | none => none
    | some hl => some (hl, st.2)

/-- The histogram loop of `gradient_hist_2D` over a list of offsets. -/
def histLoop (label_exp weights slice_map : Mat) (r : ℕ) (ori : ℚ) (i j : ℕ) :
    List (ℕ × ℕ) → List ℚ × List ℚ → Option (List ℚ × List ℚ)
  | [], st => some st
  | o :: os, st =>
    match histStep label_exp weights slice_map r ori i j st o with
    | none => none
    | some st1 => histLoop label_exp weights slice_map r ori i j os st1

/-- The chi-squared reduction of `gradient_hist_2D` (the two loops over `nn`
after the smoothing), on the smoothed histograms. -/
def chiSquared (num_bins : ℕ) (hist_left hist_right : List ℚ) : ℚ :=
  let sum_l : ℚ := ((List.range num_bins).map fun nn => hist_left.getD nn 0).sum
  let sum_r : ℚ := ((List.range num_bins).map fun nn => hist_right.getD nn 0).sum
  ((List.range num_bins).map fun nn =>
    let hist_r : ℚ := if sum_r = 0 then hist_right.getD nn 0 else hist_right.getD nn 0 / sum_r
    let hist_l : ℚ := if sum_l = 0 then hist_left.getD nn 0 else hist_left.getD nn 0 / sum_l
    let tmp1 := hist_r - hist_l
    let tmp2 := hist_r + hist_l
    let tmp2 : ℚ := if tmp2 < 1 / 100000 then 1 else tmp2
    (1 / 2) * (tmp1 * tmp1) / tmp2).sum

/-- The body of the innermost loop of `gradient_hist_2D`: the value stored in
`gradients[idx]` at `(i - r, j - r)` for the orientation `ori = oris[idx]`. -/
def gradientAt (label_exp weights slice_map : Mat) (r num_bins : ℕ) (gaussian_kernel : Mat)
    (ori : ℚ) (i j : ℕ) : Option ℚ :=
  match histLoop label_exp weights slice_map r ori i j (discOffsets r)
      (List.replicate num_bins 0, List.replicate num_bins 0) with
  | none => none
  | some (hist_left, hist_right) =>
    let gaussian_kernel :=
      if gaussian_kernel.cols = 1 then gaussian_kernel.transpose else gaussian_kernel
    match convolveDFT (Mat.ofRow hist_right) gaussian_kernel SAME_SIZE,
          convolveDFT (Mat.ofRow hist_left) gaussian_kernel SAME_SIZE with
    | some hist_right, some hist_left => some (chiSquared num_bins hist_left.data hist_right.data)
    | _, _ => none

/-- The function `gradient_hist_2D` with a caller-supplied kernel. Every entry of
every gradient map is written once, by the round `(i, j, idx)` of the loops, so
the maps are tabulated orientation by orientation. -/
def gradient_hist_2D (P : Prims) (label : Mat) (r n_ori num_bins : ℕ)
    (gaussian_kernel : Mat) : Option (List Mat) :=
  let weights := weight_matrix_disc r
  let slice_map := orientation_slice_map P r n_ori
  let oris := standard_filter_orientations n_ori DEG
  match copyMakeBorder_reflect label r r r r with
  | none => none
  | some label_exp =>
    collect (oris.map fun ori =>
      match collect ((List.range label.rows).flatMap fun i0 =>
          (List.range label.cols).map fun j0 =>
            gradientAt label_exp weights slice_map r num_bins gaussian_kernel ori
              (i0 + r) (j0 + r)) with
      | none => none
      | some d => some (⟨label.rows, label.cols, d⟩ : Mat))

/-- The function `gradient_hist_2D` with its C `int` arguments. The source checks
none of them; a negative size reaches a constructor, which raises:
`cv::Mat::zeros(1, num_bins)`, `cv::Mat::zeros(2r+1, 2r+1)` in
`weight_matrix_disc` and `orientation_slice_map`, `new double[n_ori]` in
`standard_filter_orientations`. -/
def gradient_hist_2D_int (P : Prims) (label : Mat) (r n_ori num_bins : ℤ)
    (gaussian_kernel : Mat) : Option (List Mat) :=
  if num_bins < 0 ∨ 2 * r + 1 < 0 ∨ n_ori < 0 then none
  else gradient_hist_2D P label r.toNat n_ori.toNat num_bins.toNat gaussian_kernel

/-- The kernel of the overload of `gradient_hist_2D` without a kernel argument:
`zeros(1, 7)` with a one at index `(7 - 1) / 2`. -/
def impulse_resp : Mat :=
  let length := 7
  Mat.tabulate 1 length fun _ j => if j = (length - 1) / 2 then 1 else 0

/-- The power `2 ^ k` for an integer exponent. -/
def pow2 (k : ℤ) : ℚ :=
  if 0 ≤ k then ((2 ^ k.toNat : ℕ) : ℚ) else 1 / ((2 ^ (-k).toNat : ℕ) : ℚ)

/-- Halving `n` until it is below 2, counting the steps. -/
def log2Loop : ℕ → ℕ → ℕ
  | 0, _ => 0
  | fuel + 1, n => if 2 ≤ n then log2Loop fuel (n / 2) + 1 else 0

/-- The position of the leading bit of `n`: the largest `k` with `2 ^ k ≤ n`
(0 for `n = 0`). -/
def ilog2 (n : ℕ) : ℕ := log2Loop n n

/-- The value of a real as a `double`: the nearest number with a 53-bit
significand, ties to the even significand, which is what an IEEE 754 operation
returns for the exact result `x`. The exponent range of the format is not part
of the embedding (no overflow, no subnormal numbers). -/
def fl64 (x : ℚ) : ℚ :=
  if x = 0 then 0
  else
    let a : ℚ := |x|
    let e0 : ℤ := (ilog2 a.num.natAbs : ℤ) - (ilog2 a.den : ℤ)
    let e : ℤ := if pow2 e0 ≤ a then e0 else e0 - 1
    let ulp : ℚ := pow2 (e - 52)
    let m : ℚ := a / ulp
    let f : ℤ := ⌊m⌋
    let n : ℤ :=
      if m - (f : ℚ) < 1 / 2 then f
      else if 1 / 2 < m - (f : ℚ) then f + 1
      else if f % 2 = 0 then f else f + 1
    (if x < 0 then -1 else 1) * ((n : ℚ) * ulp)

/-- The loop of `standard_filter_orientations` with the addition
`ori += ori_step` rounded to a `double`. -/
def oriLoop_fl64 : ℕ → ℚ → ℚ → List ℚ
  | 0, _, _ => []
  | k + 1, ori, ori_step => ori :: oriLoop_fl64 k (fl64 (ori + ori_step)) ori_step

/-- The function `standard_filter_orientations` in `double` arithmetic: the
quotient that gives the step and every addition of the loop are rounded. -/
def standard_filter_orientations_fl64 (n_ori : ℕ) (label : Bool) : List ℚ :=
  let flag := if label then RAD else DEG
  if flag then
    let ori_step : ℚ := if n_ori > 0 then fl64 (M_PI / n_ori) else 0
    oriLoop_fl64 n_ori 0 ori_step
  else
    let ori_step : ℚ := if n_ori > 0 then fl64 (180 / n_ori) else 0
    oriLoop_fl64 n_ori 0 ori_step

/-- The test of `gradient_hist_2D` that sends an offset to the right histogram,
with the `double` subtraction `oris[idx]-180.0` rounded. The slice angle is a
`float`, converted to `double` without rounding for the two comparisons. -/
def inRightHalf_fl64 (slice_map : Mat) (ori : ℚ) (u v : ℕ) : Bool :=
  slice_map.get u v > fl64 (ori - 180) ∧ slice_map.get u v ≤ ori

/-- One round of the histogram loop of `gradient_hist_2D`, as `histStep`, with
the slice test `inRightHalf_fl64`. -/
def histStep_fl64 (label_exp weights slice_map : Mat) (r : ℕ) (ori : ℚ) (i j : ℕ)
    (st : List ℚ × List ℚ) (o : ℕ × ℕ) : Option (List ℚ × List ℚ) :=
  let bin : ℤ := cint (label_exp.get (i + o.1 - r) (j + o.2 - r))
  if inRightHalf_fl64 slice_map ori o.1 o.2 then
    match histAdd st.2 bin (weights.get o.1 o.2) with
    | none => none
    | some hr => some (st.1, hr)
  else
    match histAdd st.1 bin (weights.get o.1 o.2) with
    | none => none
    | some hl => some (hl, st.2)

/-- The histogram loop of `gradient_hist_2D` over a list of offsets, as
`histLoop`, with the slice test `inRightHalf_fl64`. -/
def histLoop_fl64 (label_exp weights slice_map : Mat) (r : ℕ) (ori : ℚ) (i j : ℕ) :
    List (ℕ × ℕ) → List ℚ × List ℚ → Option (List ℚ × List ℚ)
  | [], st => some st
  | o :: os, st =>
    match histStep_fl64 label_exp weights slice_map r ori i j st o with
    | none => none
    | some st1 => histLoop_fl64 label_exp weights slice_map r ori i j os st1

/-! ## Definitions used in the statements and proofs -/

/-- One bin of the chi-squared reduction, as a function of the two normalised
entries. -/
def chiTerm (hist_l hist_r : ℚ) : ℚ :=
  (1 / 2) * ((hist_r - hist_l) * (hist_r - hist_l)) /
    (if hist_r + hist_l < 1 / 100000 then 1 else hist_r + hist_l)

/-- The normalisation of `gradient_hist_2D`: a histogram entry divided by the
histogram's sum over its `num_bins` bins, unless that sum is zero. -/
def normBin (num_bins : ℕ) (hist : List ℚ) (nn : ℕ) : ℚ :=
  if ((List.range num_bins).map fun k => hist.getD k 0).sum = 0 then hist.getD nn 0
  else hist.getD nn 0 / ((List.range num_bins).map fun k => hist.getD k 0).sum

/-- A stand-in for the library routines, used to instantiate theorems: a
positive bell-shaped `exp`, the values of `cos`, `sin` at 0, an `atan2` that is
exact on the four half-axes, and a warp that leaves the image unchanged. -/
def samplePrims : Prims where
  exp := fun t => 1 / (1 + t * t)
  cos := fun _ => 1
  sin := fun _ => 0
  atan2 := fun y x =>
    if 0 < x then 0 else if x < 0 then M_PI else if 0 < y then M_PI / 2
    else if y < 0 then -(M_PI / 2) else 0
  warpAffine := fun m _ _ _ => m

/-- The linear convolution of the spec: entry `k` of `A * B` is the sum over `i`
of `A[i] * B[k - i]`, for `0 ≤ k < a + b - 1`. -/
def linearConv_spec (A B : List ℚ) : List ℚ :=
  (List.range (A.length + B.length - 1)).map fun k =>
    ((List.range (k + 1)).map fun i => A.getD i 0 * B.getD (k - i) 0).sum

/-- The same-size result of the spec: the length-`a` slice of the linear
convolution that starts at `floor((b - 1) / 2)`. -/
def sameSizeSlice_spec (A B : List ℚ) : List ℚ :=
  (List.range A.length).map fun j => (linearConv_spec A B).getD (j + (B.length - 1) / 2) 0

/-- The label bin read by the histogram loop at the offset `o`. -/
def binAt (label_exp : Mat) (r i j : ℕ) (o : ℕ × ℕ) : ℤ :=
  cint (label_exp.get (i + o.1 - r) (j + o.2 - r))

/-- The total weight the histogram loop adds to bin `k` of the right histogram. -/
def rightMass (label_exp weights slice_map : Mat) (r : ℕ) (ori : ℚ) (i j : ℕ)
    (os : List (ℕ × ℕ)) (k : ℕ) : ℚ :=
  (os.map fun o =>
    if inRightHalf slice_map ori o.1 o.2 = true ∧ binAt label_exp r i j o = (k : ℤ)
    then weights.get o.1 o.2 else 0).sum

/-- The total weight the histogram loop adds to bin `k` of the left histogram. -/
def leftMass (label_exp weights slice_map : Mat) (r : ℕ) (ori : ℚ) (i j : ℕ)
    (os : List (ℕ × ℕ)) (k : ℕ) : ℚ :=
  (os.map fun o =>
    if inRightHalf slice_map ori o.1 o.2 = false ∧ binAt label_exp r i j o = (k : ℤ)
    then weights.get o.1 o.2 else 0).sum

/-- The padded length `width - 1` that `convolveDFT` uses for a histogram of
`n` bins and the default kernel. -/
def padLen (n : ℕ) : ℕ := (getOptimalDFTSize ((n : ℤ) + 7 - 1) - 1).toNat

/-- What `convolveDFT` returns, in same-size mode, for a histogram and the
default kernel. -/
def smoothDefault (hist : List ℚ) : List ℚ :=
  ((cconv (padLen hist.length) hist impulse_resp.data).drop
    ((padLen hist.length - hist.length) / 2)).take hist.length

/-- The total disc weight that goes to the right histogram. -/
def rightTotal (weights slice_map : Mat) (r : ℕ) (ori : ℚ) : ℚ :=
  ((discOffsets r).map fun o =>
    if inRightHalf slice_map ori o.1 o.2 = true then weights.get o.1 o.2 else 0).sum

/-- The total disc weight that goes to the left histogram. -/
def leftTotal (weights slice_map : Mat) (r : ℕ) (ori : ℚ) : ℚ :=
  ((discOffsets r).map fun o =>
    if inRightHalf slice_map ori o.1 o.2 = false then weights.get o.1 o.2 else 0).sum

/-- The reduction as the spec's failure policy words it: a histogram sum below
`1e-5` is treated as 1.0, so the bins of such a histogram enter undivided. The
rest is the reduction of the source. -/
def chiSquared_sumClamp_spec (num_bins : ℕ) (hist_left hist_right : List ℚ) : ℚ :=
  let sum_l : ℚ := ((List.range num_bins).map fun nn => hist_left.getD nn 0).sum
  let sum_r : ℚ := ((List.range num_bins).map fun nn => hist_right.getD nn 0).sum
  let sum_l : ℚ := if sum_l < 1 / 100000 then 1 else sum_l
  let sum_r : ℚ := if sum_r < 1 / 100000 then 1 else sum_r
  ((List.range num_bins).map fun nn =>
    chiTerm (hist_left.getD nn 0 / sum_l) (hist_right.getD nn 0 / sum_r)).sum

/-- The working half-length `half_rotate_len` computed at the start of
`gaussianFilter2D`. -/
def workingHalfLen (P : Prims) (half_len : ℕ) (ori : ℚ) : ℤ :=
  let half_len_rotate_x := supportRotated P half_len half_len ori X_ORI
  let half_len_rotate_y := supportRotated P half_len half_len ori Y_ORI
  if half_len_rotate_x > half_len_rotate_y then half_len_rotate_x else half_len_rotate_y

/-- Library routines for which only `cos` and `sin` at the argument 90 (radians)
matter: `cos 90 = -0.448...`, `sin 90 = 0.893...`, to three digits. -/
def radianPrims : Prims where
  exp := samplePrims.exp
  cos := fun t => if t = 90 then -448 / 1000 else 1
  sin := fun t => if t = 90 then 894 / 1000 else 0
  atan2 := samplePrims.atan2
  warpAffine := samplePrims.warpAffine

/-- The padded length `width - 1` of `convolveDFT` for rows of `a` and `b`
entries. -/
def expandLen (a b : ℕ) : ℕ := (getOptimalDFTSize ((a : ℤ) + (b : ℤ) - 1) - 1).toNat

/-- The product `output_x * output_y.t()` of the two columns in
`gaussianFilter2D`: the kernel before rotation. -/
def outerProduct (output_x output_y : Mat) : Mat :=
  Mat.tabulate output_x.rows output_y.rows fun i j => output_x.get i 0 * output_y.get j 0

/-- The 180-degree rotation of the disc window about its centre `(r, r)`, on
the offsets `(u, v)` with `u, v ≤ 2r`. -/
def rot180 (r : ℕ) (o : ℕ × ℕ) : ℕ × ℕ := (2 * r - o.1, 2 * r - o.2)

/-- The total disc weight that goes to the right histogram under the slice test
with the rounded subtraction. -/
def rightTotal_fl64 (weights slice_map : Mat) (r : ℕ) (ori : ℚ) : ℚ :=
  ((discOffsets r).map fun o =>
    if inRightHalf_fl64 slice_map ori o.1 o.2 = true then weights.get o.1 o.2 else 0).sum

/-- The total disc weight that goes to the left histogram under the slice test
with the rounded subtraction. -/
def leftTotal_fl64 (weights slice_map : Mat) (r : ℕ) (ori : ℚ) : ℚ :=
  ((discOffsets r).map fun o =>
    if inRightHalf_fl64 slice_map ori o.1 o.2 = false then weights.get o.1 o.2 else 0).sum

/-- Library routines with the values of `atan2` on the eight directions of the
compass, which are the `double`s that `libm` returns there: the multiples of
`M_PI / 4`. The value 0 given to every other direction is a placeholder. The
other routines are those of `samplePrims`. -/
def compassPrims : Prims where
  exp := samplePrims.exp
  cos := samplePrims.cos
  sin := samplePrims.sin
  atan2 := fun y x =>
    if y = 0 then (if x < 0 then M_PI else 0)
    else if x = 0 then (if 0 < y then M_PI / 2 else -(M_PI / 2))
    else if y = x then (if 0 < y then M_PI / 4 else -(3 * M_PI / 4))
    else if y = -x then (if 0 < y then 3 * M_PI / 4 else -(M_PI / 4))
    else 0
  warpAffine := samplePrims.warpAffine

/-! # Theorems -/

/-! ## Lists of rationals -/

theorem sum_eq_zero_of_nonneg {l : List ℚ} (hnn : ∀ x ∈ l, 0 ≤ x) (hs : l.sum = 0) :
    ∀ x ∈ l, x = 0 := by
  induction l with
  | nil => intro x hx; cases hx
  | cons a t ih =>
    have ha : 0 ≤ a := hnn a (List.mem_cons_self a t)
    have ht : 0 ≤ t.sum := List.sum_nonneg fun x hx => hnn x (List.mem_cons_of_mem a hx)
    rw [List.sum_cons] at hs
    have ha0 : a = 0 := by linarith
    have ht0 : t.sum = 0 := by linarith
    intro x hx
    rcases List.mem_cons.mp hx with rfl | hx
    · exact ha0
    · exact ih (fun y hy => hnn y (List.mem_cons_of_mem a hy)) ht0 x hx

theorem sum_map_range_getD (l : List ℚ) :
    ((List.range l.length).map fun nn => l.getD nn 0).sum = l.sum := by
  have : (List.range l.length).map (fun nn => l.getD nn 0) = l := by
    apply List.ext_getElem
    · simp
    · intro i h1 h2
      simp [List.getD_eq_getElem?_getD, List.getElem?_eq_getElem h2]
  rw [this]

theorem chiSquared_eq (num_bins : ℕ) (L R : List ℚ) :
    chiSquared num_bins L R =
      ((List.range num_bins).map fun nn =>
        chiTerm (normBin num_bins L nn) (normBin num_bins R nn)).sum := rfl

theorem chiTerm_comm (a b : ℚ) : chiTerm a b = chiTerm b a := by
  unfold chiTerm
  rw [add_comm b a]
  congr 1
  ring

theorem chiTerm_den_pos (a b : ℚ) :
    0 < (if b + a < 1 / 100000 then (1 : ℚ) else b + a) := by
  split_ifs with h
  · norm_num
  · push_neg at h
    linarith

theorem chiTerm_nonneg (a b : ℚ) : 0 ≤ chiTerm a b := by
  unfold chiTerm
  apply div_nonneg
  · have := mul_self_nonneg (b - a)
    linarith
  · exact (chiTerm_den_pos a b).le

theorem chiTerm_eq_zero_iff (a b : ℚ) : chiTerm a b = 0 ↔ a = b := by
  unfold chiTerm
  have hd := chiTerm_den_pos a b
  rw [div_eq_zero_iff]
  constructor
  · rintro (h | h)
    · have h2 : (b - a) * (b - a) = 0 := by linarith
      have h3 : b - a = 0 := by simpa using h2
      linarith
    · exact absurd h hd.ne'
  · intro h
    left
    rw [h]
    ring

/-- C4. The chi-squared score computed by the reduction of `gradient_hist_2D`
does not change when the left and the right smoothed histogram are swapped (for
any two histograms and any number of bins, in particular for two of equal
length `num_bins`). -/
theorem chiSquared_swap (num_bins : ℕ) (L R : List ℚ) :
    chiSquared num_bins L R = chiSquared num_bins R L := by
  rw [chiSquared_eq, chiSquared_eq]
  congr 1
  apply List.map_congr_left
  intro nn _
  exact chiTerm_comm _ _

theorem chiSquared_zero_iff_bins (num_bins : ℕ) (L R : List ℚ) :
    chiSquared num_bins L R = 0 ↔
      ∀ k, k < num_bins → normBin num_bins L k = normBin num_bins R k := by
  rw [chiSquared_eq]
  constructor
  · intro h k hk
    have hz := sum_eq_zero_of_nonneg
      (l := (List.range num_bins).map fun nn =>
        chiTerm (normBin num_bins L nn) (normBin num_bins R nn))
      (by
        intro x hx
        rcases List.mem_map.mp hx with ⟨nn, _, rfl⟩
        exact chiTerm_nonneg _ _) h
    have := hz (chiTerm (normBin num_bins L k) (normBin num_bins R k))
      (List.mem_map.mpr ⟨k, List.mem_range.mpr hk, rfl⟩)
    exact (chiTerm_eq_zero_iff _ _).mp this
  · intro h
    apply List.sum_eq_zero
    intro x hx
    rcases List.mem_map.mp hx with ⟨nn, hnn, rfl⟩
    exact (chiTerm_eq_zero_iff _ _).mpr (h nn (List.mem_range.mp hnn))

/-- C5. The chi-squared score of two smoothed histograms is zero exactly when
the two normalised histograms (each entry divided by the histogram's own sum,
unless that sum is zero) agree in every one of the `num_bins` bins. -/
theorem chiSquared_eq_zero_iff (num_bins : ℕ) (L R : List ℚ) :
    chiSquared num_bins L R = 0 ↔
      ∀ k, k < num_bins → normBin num_bins L k = normBin num_bins R k :=
  chiSquared_zero_iff_bins num_bins L R

theorem getD_mem_or_zero (l : List ℚ) (k : ℕ) : l.getD k 0 = 0 ∨ l.getD k 0 ∈ l := by
  by_cases h : k < l.length
  · right
    rw [List.getD_eq_getElem _ _ h]
    exact List.getElem_mem h
  · left
    rw [List.getD_eq_default _ _ (by omega)]

theorem chiTerm_zero_left (r : ℚ) (hr : r ≠ 0 → 1 / 100000 ≤ r) : chiTerm 0 r = (1 / 2) * r := by
  unfold chiTerm
  by_cases h0 : r = 0
  · subst h0; simp
  · have h1 := hr h0
    have hpos : 0 < r := by linarith [show (0 : ℚ) < 1 / 100000 by norm_num]
    rw [if_neg (by simpa using h1)]
    field_simp
    ring

/-- C3. For two normalised histograms (sum 1 over `num_bins` bins) with disjoint
supports whose non-zero entries are all at least `1e-5`, the chi-squared
reduction of `gradient_hist_2D` gives exactly 1. -/
theorem chiSquared_disjoint (num_bins : ℕ) (L R : List ℚ)
    (hL : L.length = num_bins) (hR : R.length = num_bins)
    (hLs : L.sum = 1) (hRs : R.sum = 1)
    (hdisj : ∀ k, L.getD k 0 = 0 ∨ R.getD k 0 = 0)
    (hLbig : ∀ x ∈ L, x ≠ 0 → 1 / 100000 ≤ x)
    (hRbig : ∀ x ∈ R, x ≠ 0 → 1 / 100000 ≤ x) :
    chiSquared num_bins L R = 1 := by
  have hsl : ((List.range num_bins).map fun k => L.getD k 0).sum = 1 := by
    rw [← hL, sum_map_range_getD, hLs]
  have hsr : ((List.range num_bins).map fun k => R.getD k 0).sum = 1 := by
    rw [← hR, sum_map_range_getD, hRs]
  have hterm : ∀ nn, chiTerm (normBin num_bins L nn) (normBin num_bins R nn) =
      (1 / 2) * L.getD nn 0 + (1 / 2) * R.getD nn 0 := by
    intro nn
    have hnl : normBin num_bins L nn = L.getD nn 0 := by
      unfold normBin; rw [hsl]; simp
    have hnr : normBin num_bins R nn = R.getD nn 0 := by
      unfold normBin; rw [hsr]; simp
    rw [hnl, hnr]
    have hl' : L.getD nn 0 ≠ 0 → 1 / 100000 ≤ L.getD nn 0 := by
      intro hne
      rcases getD_mem_or_zero L nn with h | h
      · exact absurd h hne
      · exact hLbig _ h hne
    have hr' : R.getD nn 0 ≠ 0 → 1 / 100000 ≤ R.getD nn 0 := by
      intro hne
      rcases getD_mem_or_zero R nn with h | h
      · exact absurd h hne
      · exact hRbig _ h hne
    rcases hdisj nn with h | h
    · rw [h, chiTerm_zero_left _ hr']; ring
    · rw [h, chiTerm_comm, chiTerm_zero_left _ hl']; ring
  rw [chiSquared_eq]
  have : ((List.range num_bins).map fun nn =>
      chiTerm (normBin num_bins L nn) (normBin num_bins R nn)) =
      (List.range num_bins).map fun nn => (1 / 2) * L.getD nn 0 + (1 / 2) * R.getD nn 0 :=
    List.map_congr_left fun nn _ => hterm nn
  rw [this, List.sum_map_add, List.sum_map_mul_left, List.sum_map_mul_left, hsl, hsr]
  norm_num

/-- C3, the scenario of the spec: `p_l = [1, 0]` and `p_r = [0, 1]` give 1. -/
theorem chiSquared_disjoint_witness : chiSquared 2 [1, 0] [0, 1] = 1 :=
  chiSquared_disjoint 2 [1, 0] [0, 1] rfl rfl (by norm_num) (by norm_num)
    (by
      intro k
      rcases k with _ | _ | k
      · right; rfl
      · left; rfl
      · left; rfl)
    (by
      intro x hx hne
      simp at hx
      rcases hx with rfl | rfl
      · norm_num
      · exact absurd rfl hne)
    (by
      intro x hx hne
      simp at hx
      rcases hx with rfl | rfl
      · exact absurd rfl hne
      · norm_num)

/-! ## `standard_filter_orientations` -/

theorem oriLoop_length (k : ℕ) (ori step : ℚ) : (oriLoop k ori step).length = k := by
  induction k generalizing ori with
  | zero => rfl
  | succ k ih => simp [oriLoop, ih]

theorem oriLoop_getD (k : ℕ) (ori step : ℚ) (i : ℕ) (hi : i < k) :
    (oriLoop k ori step).getD i 0 = ori + (i : ℚ) * step := by
  induction k generalizing ori i with
  | zero => omega
  | succ k ih =>
    cases i with
    | zero => simp [oriLoop]
    | succ i =>
      simp only [oriLoop, List.getD_cons_succ]
      rw [ih (ori + step) i (by omega)]
      push_cast
      ring

theorem mem_oriLoop {k : ℕ} {ori step x : ℚ} (hx : x ∈ oriLoop k ori step) :
    ∃ i, i < k ∧ x = ori + (i : ℚ) * step := by
  induction k generalizing ori with
  | zero => simp [oriLoop] at hx
  | succ k ih =>
    simp only [oriLoop, List.mem_cons] at hx
    rcases hx with rfl | hx
    · exact ⟨0, by omega, by simp⟩
    · obtain ⟨i, hi, rfl⟩ := ih hx
      exact ⟨i + 1, by omega, by push_cast; ring⟩

theorem oriLoop_pairwise (k : ℕ) (ori step : ℚ) (hs : 0 < step) :
    (oriLoop k ori step).Pairwise (· < ·) := by
  induction k generalizing ori with
  | zero => simp [oriLoop]
  | succ k ih =>
    simp only [oriLoop, List.pairwise_cons]
    refine ⟨?_, ih _⟩
    intro x hx
    obtain ⟨i, _, rfl⟩ := mem_oriLoop hx
    have : 0 ≤ (i : ℚ) * step := mul_nonneg (Nat.cast_nonneg i) hs.le
    linarith

theorem standard_filter_orientations_deg (n : ℕ) :
    standard_filter_orientations n DEG = oriLoop n 0 (if n > 0 then 180 / (n : ℚ) else 0) := by
  simp [standard_filter_orientations, DEG]

theorem mem_orientations_deg {n : ℕ} {x : ℚ} (hx : x ∈ standard_filter_orientations n DEG) :
    0 ≤ x ∧ x < 180 := by
  rw [standard_filter_orientations_deg] at hx
  obtain ⟨i, hi, rfl⟩ := mem_oriLoop hx
  have hn : 0 < n := by omega
  have hnq : (0 : ℚ) < n := by exact_mod_cast hn
  have hiq : (i : ℚ) < n := by exact_mod_cast hi
  rw [if_pos hn, zero_add]
  constructor
  · positivity
  · rw [mul_div_assoc', div_lt_iff₀ hnq]
    nlinarith

/-- C6. For every orientation count `n`, `standard_filter_orientations(n, DEG)`
has exactly `n` entries, the `i`-th being `i * (180 / n)`; consecutive entries
differ by `180 / n`, the entries increase strictly and lie in `[0, 180)`; for
`n = 4` the result is `[0, 45, 90, 135]`; for `n = 0` it is empty, and so is
the set of oriented filters that `gaussianFilters` builds from it. -/
theorem standard_filter_orientations_spec :
    (∀ n : ℕ,
      (standard_filter_orientations n DEG).length = n ∧
      (∀ i, i < n → (standard_filter_orientations n DEG).getD i 0 = (i : ℚ) * (180 / (n : ℚ))) ∧
      (∀ i, i + 1 < n → (standard_filter_orientations n DEG).getD (i + 1) 0 -
          (standard_filter_orientations n DEG).getD i 0 = 180 / (n : ℚ)) ∧
      (standard_filter_orientations n DEG).Pairwise (· < ·) ∧
      (∀ x ∈ standard_filter_orientations n DEG, 0 ≤ x ∧ x < 180)) ∧
    standard_filter_orientations 4 DEG = [0, 45, 90, 135] ∧
    standard_filter_orientations 0 DEG = [] ∧
    (∀ (P : Prims) (sigma : ℚ) (deriv : ℕ) (hlbrt : Bool) (enlongation : ℚ),
      gaussianFilters P 0 sigma deriv hlbrt enlongation = some []) := by
  refine ⟨?_, ?_, ?_, ?_⟩
  · intro n
    have hget : ∀ i, i < n →
        (standard_filter_orientations n DEG).getD i 0 = (i : ℚ) * (180 / (n : ℚ)) := by
      intro i hi
      rw [standard_filter_orientations_deg, oriLoop_getD _ _ _ _ hi, if_pos (by omega), zero_add]
    refine ⟨?_, hget, ?_, ?_, ?_⟩
    · rw [standard_filter_orientations_deg, oriLoop_length]
    · intro i hi
      rw [hget (i + 1) hi, hget i (by omega)]
      push_cast
      ring
    · rw [standard_filter_orientations_deg]
      rcases Nat.eq_zero_or_pos n with h0 | hpos
      · subst h0; simp [oriLoop]
      · apply oriLoop_pairwise
        rw [if_pos hpos]
        have : (0 : ℚ) < n := by exact_mod_cast hpos
        positivity
    · intro x hx
      exact mem_orientations_deg hx
  · simp [standard_filter_orientations, DEG, oriLoop]
    norm_num
  · simp [standard_filter_orientations, DEG, oriLoop]
  · intro P sigma deriv hlbrt enlongation
    simp [gaussianFilters, standard_filter_orientations, DEG, oriLoop, collect]

/-! ## Gaussian kernels -/

theorem getGaussianKernel_length (P : Prims) (n : ℕ) (sigma : ℚ) :
    (getGaussianKernel P n sigma).length = n := by
  simp [getGaussianKernel]

theorem getGaussianKernel_pos_sigma (P : Prims) (n : ℕ) (sigma : ℚ) (hs : 0 < sigma) :
    getGaussianKernel P n sigma =
      ((List.range n).map fun (i : ℕ) =>
        P.exp (-(1 / 2) / (sigma * sigma) * ((i : ℚ) - ((n : ℚ) - 1) * (1 / 2)) *
          ((i : ℚ) - ((n : ℚ) - 1) * (1 / 2)))).map fun v =>
        v * (1 / ((List.range n).map fun (i : ℕ) =>
          P.exp (-(1 / 2) / (sigma * sigma) * ((i : ℚ) - ((n : ℚ) - 1) * (1 / 2)) *
            ((i : ℚ) - ((n : ℚ) - 1) * (1 / 2)))).sum) := by
  have h1 : ¬ sigma ≤ 0 := not_le.mpr hs
  simp [getGaussianKernel, h1, hs]

theorem getGaussianKernel_props (P : Prims) (h : ℕ) (sigma : ℚ) (hs : 0 < sigma)
    (hnn : ∀ t, 0 ≤ P.exp t) (h0 : 0 < P.exp 0) :
    (∀ x ∈ getGaussianKernel P (2 * h + 1) sigma, 0 ≤ x) ∧
      (getGaussianKernel P (2 * h + 1) sigma).sum = 1 := by
  rw [getGaussianKernel_pos_sigma P _ sigma hs]
  set cf : List ℚ := (List.range (2 * h + 1)).map fun (i : ℕ) =>
    P.exp (-(1 / 2) / (sigma * sigma) * ((i : ℚ) - (((2 * h + 1 : ℕ) : ℚ) - 1) * (1 / 2)) *
      ((i : ℚ) - (((2 * h + 1 : ℕ) : ℚ) - 1) * (1 / 2))) with hcf
  have hcfnn : ∀ x ∈ cf, 0 ≤ x := by
    intro x hx
    rcases List.mem_map.mp hx with ⟨i, _, rfl⟩
    exact hnn _
  have hmid : P.exp 0 ∈ cf := by
    refine List.mem_map.mpr ⟨h, List.mem_range.mpr (by omega), ?_⟩
    congr 1
    push_cast
    ring
  have hS : 0 < cf.sum := lt_of_lt_of_le h0 (List.single_le_sum hcfnn _ hmid)
  constructor
  · intro x hx
    rcases List.mem_map.mp hx with ⟨v, hv, rfl⟩
    exact mul_nonneg (hcfnn v hv) (div_nonneg zero_le_one hS.le)
  · rw [List.sum_map_mul_right]
    simp only [List.map_id']
    field_simp

theorem sum_map_abs_of_nonneg (l : List ℚ) (hnn : ∀ x ∈ l, 0 ≤ x) :
    (l.map fun v => |v|).sum = l.sum := by
  congr 1
  conv_rhs => rw [← List.map_id l]
  exact List.map_congr_left fun x hx => abs_of_nonneg (hnn x hx)

/-- C7. For every half-length `h` and every `sigma > 0`, `gaussianFilter1D` with
derivative order 0 and the Hilbert transform off returns a column of
`2h + 1` entries, all non-negative, whose sum (and sum of absolute values) is 1.
The library's `exp` enters through its only properties used: it is never
negative and `exp 0` is positive. -/
theorem gaussianFilter1D_order0_sum (P : Prims) (h : ℕ) (sigma : ℚ) (hs : 0 < sigma)
    (hnn : ∀ t, 0 ≤ P.exp t) (h0 : 0 < P.exp 0) :
    ∃ out, gaussianFilter1D P h sigma 0 HILBRT_OFF = some out ∧
      out.rows = 2 * h + 1 ∧ out.cols = 1 ∧ out.data.length = 2 * h + 1 ∧
      out.data.sum = 1 ∧ (out.data.map fun v => |v|).sum = 1 ∧ ∀ x ∈ out.data, 0 ≤ x := by
  obtain ⟨hg_nn, hg_sum⟩ := getGaussianKernel_props P h sigma hs hnn h0
  have habs : ((getGaussianKernel P (2 * h + 1) sigma).map fun v => |v|).sum = 1 := by
    rw [sum_map_abs_of_nonneg _ hg_nn, hg_sum]
  refine ⟨⟨2 * h + 1, 1, getGaussianKernel P (2 * h + 1) sigma⟩, ?_, rfl, rfl,
    getGaussianKernel_length P _ sigma, hg_sum, habs, hg_nn⟩
  simp [gaussianFilter1D, HILBRT_OFF, HILBRT_ON, normalizeDistr, NON_ZERO, ZERO, habs]

/-- C7 at `h = 1`, `sigma = 1`. -/
theorem gaussianFilter1D_order0_sum_witness :
    ∃ out, gaussianFilter1D samplePrims 1 1 0 HILBRT_OFF = some out ∧
      out.rows = 2 * 1 + 1 ∧ out.cols = 1 ∧ out.data.length = 2 * 1 + 1 ∧
      out.data.sum = 1 ∧ (out.data.map fun v => |v|).sum = 1 ∧ ∀ x ∈ out.data, 0 ≤ x :=
  gaussianFilter1D_order0_sum samplePrims 1 1 (by norm_num)
    (by
      intro t
      show 0 ≤ 1 / (1 + t * t)
      exact div_nonneg zero_le_one (by linarith [mul_self_nonneg t]))
    (by simp [samplePrims])

theorem getOptimalDFTSize_one : getOptimalDFTSize 1 = 1 := by decide

theorem convolveDFT_one_one (A B : Mat) (label : Bool) (hA : A.cols = 1) (hB : B.cols = 1) :
    convolveDFT A B label = none := by
  unfold convolveDFT
  simp only [hA, hB]
  have h : getOptimalDFTSize (((1 : ℕ) : ℤ) + ((1 : ℕ) : ℤ) - 1) = 1 := by
    norm_num [getOptimalDFTSize_one]
  rw [h]
  simp

theorem hilbertTransform1D_one_one (d : List ℚ) (label : Bool) :
    hilbertTransform1D ⟨1, 1, d⟩ label = none := by
  unfold hilbertTransform1D
  dsimp only
  rw [convolveDFT_one_one _ _ _ (by simp [Mat.transpose, Mat.tabulate])
    (by simp [hilbertKernel, Mat.tabulate])]

/-- C8. A failing input: with half-length 0 (kernel length 1) and derivative
order 1 or 2, `gaussianFilter1D` does not return a filter whose entries sum to
0. With the Hilbert transform off, the single entry is 0 after the mean shift,
the sum of absolute values is 0 and `normalizeDistr` divides by it; with the
Hilbert transform on, `convolveDFT` asks `copyMakeBorder` for a negative
padding. -/
theorem gaussianFilter1D_len1 (P : Prims) (sigma : ℚ) :
    gaussianFilter1D P 0 sigma 1 HILBRT_OFF = none ∧
    gaussianFilter1D P 0 sigma 2 HILBRT_OFF = none ∧
    gaussianFilter1D P 0 sigma 1 HILBRT_ON = none ∧
    gaussianFilter1D P 0 sigma 2 HILBRT_ON = none := by
  refine ⟨?_, ?_, ?_, ?_⟩
  · simp [gaussianFilter1D, HILBRT_OFF, HILBRT_ON, normalizeDistr, ZERO, List.range_succ]
  · simp [gaussianFilter1D, HILBRT_OFF, HILBRT_ON, normalizeDistr, ZERO, List.range_succ]
  · simp [gaussianFilter1D, HILBRT_ON, hilbertTransform1D_one_one]
  · simp [gaussianFilter1D, HILBRT_ON, hilbertTransform1D_one_one]

/-- C10. A failing input: for `A = [1, 0]` and the length-7 impulse `B`, the
same-size `convolveDFT` returns `[0, 1]`, while the slice of the linear
convolution that starts at `floor((b - 1) / 2) = 3` is `[1, 0]`. -/
theorem convolveDFT_same_offcentre :
    convolveDFT (Mat.ofRow [1, 0]) impulse_resp SAME_SIZE = some ⟨1, 2, [0, 1]⟩ ∧
    sameSizeSlice_spec [1, 0] impulse_resp.data = [1, 0] := by
  decide!

/-- C9. A failing input: the symmetric signal of length 11 with a single one
in the middle. The same-size result of `hilbertTransform1D` has
`t[1] = -1/(3 M_PI)` and `t[9] = 1/(5 M_PI)`, so `t[1] ≠ -t[9]`. -/
theorem hilbertTransform1D_len11 :
    hilbertTransform1D (Mat.ofRow [0, 0, 0, 0, 0, 1, 0, 0, 0, 0, 0]) SAME_SIZE =
      some ⟨1, 11, [0, -(1 / (3 * M_PI)), 0, -(1 / M_PI), 0, 1 / M_PI, 0, 1 / (3 * M_PI), 0,
        1 / (5 * M_PI), 0]⟩ ∧
    -(1 / (3 * M_PI)) ≠ -(1 / (5 * M_PI)) := by
  decide!

/-! ## Tabulated matrices -/

theorem flatMap_rows_length (R C : ℕ) (g : ℕ → List ℚ) (hg : ∀ i, (g i).length = C) :
    ((List.range R).flatMap g).length = R * C := by
  induction R with
  | zero => simp
  | succ R ih =>
    rw [List.range_succ, List.flatMap_append, List.length_append, ih]
    simp [hg, Nat.succ_mul]

theorem flatMap_rows_getD (R C : ℕ) (g : ℕ → List ℚ) (hg : ∀ i, (g i).length = C)
    (i j : ℕ) (hi : i < R) (hj : j < C) :
    ((List.range R).flatMap g).getD (i * C + j) 0 = (g i).getD j 0 := by
  induction R with
  | zero => omega
  | succ R ih =>
    rw [List.range_succ, List.flatMap_append]
    have hlen := flatMap_rows_length R C g hg
    by_cases h : i < R
    · have hlt : i * C + j < R * C := by
        have : (i + 1) * C ≤ R * C := Nat.mul_le_mul_right C h
        rw [Nat.succ_mul] at this
        omega
      rw [List.getD_append _ _ _ _ (by rw [hlen]; exact hlt)]
      exact ih h
    · have hiR : i = R := by omega
      subst hiR
      rw [List.getD_append_right _ _ _ _ (by rw [hlen]; omega), hlen]
      simp only [List.flatMap_cons, List.flatMap_nil, List.append_nil]
      congr 1
      omega

theorem Mat.get_tabulate (R C : ℕ) (f : ℕ → ℕ → ℚ) (i j : ℕ) (hi : i < R) (hj : j < C) :
    (Mat.tabulate R C f).get i j = f i j := by
  unfold Mat.get Mat.tabulate
  dsimp only
  rw [flatMap_rows_getD R C _ (by intro i; simp) i j hi hj]
  rw [List.getD_eq_getElem _ _ (by simpa using hj)]
  simp

theorem Mat.tabulate_data_length (R C : ℕ) (f : ℕ → ℕ → ℚ) :
    (Mat.tabulate R C f).data.length = R * C :=
  flatMap_rows_length R C _ (by intro i; simp)

theorem collect_map_some {α β : Type} (l : List α) (f : α → Option β) (g : α → β)
    (h : ∀ a ∈ l, f a = some (g a)) : collect (l.map f) = some (l.map g) := by
  induction l with
  | nil => rfl
  | cons a t ih =>
    have ha := h a (List.mem_cons_self a t)
    have ht := ih fun x hx => h x (List.mem_cons_of_mem a hx)
    simp only [List.map_cons, ha, collect, ht]

theorem borderLoop_range (fuel : ℕ) (p len : ℤ)
    (hout : p < 0 ∨ len ≤ p)
    (hfuel : (if p < 0 then -p else p - len + 1) ≤ (fuel : ℤ) * len) :
    0 ≤ borderLoop fuel p len ∧ borderLoop fuel p len < len := by
  induction fuel generalizing p with
  | zero =>
    exfalso
    split_ifs at hfuel <;> simp at hfuel <;> omega
  | succ fuel ih =>
    unfold borderLoop
    dsimp only
    push_cast at hfuel
    by_cases hp : p < 0
    · rw [if_pos hp] at hfuel ⊢
      by_cases hin : 0 ≤ -p - 1 ∧ -p - 1 < len
      · rw [if_pos hin]; exact hin
      · rw [if_neg hin]
        apply ih
        · right; omega
        · rw [if_neg (by omega)]
          linarith
    · rw [if_neg hp] at hfuel ⊢
      have hge : len ≤ p := by omega
      by_cases hin : 0 ≤ len - 1 - (p - len) ∧ len - 1 - (p - len) < len
      · rw [if_pos hin]; exact hin
      · rw [if_neg hin]
        have hneg : len - 1 - (p - len) < 0 := by omega
        apply ih
        · left; exact hneg
        · rw [if_pos hneg]
          linarith

theorem borderInterpolate_range (p len : ℤ) (hlen : 0 < len) :
    0 ≤ borderInterpolate p len ∧ borderInterpolate p len < len := by
  unfold borderInterpolate
  by_cases hin : 0 ≤ p ∧ p < len
  · rw [if_pos hin]; exact hin
  · rw [if_neg hin]
    by_cases h1 : len = 1
    · rw [if_pos h1]; omega
    · rw [if_neg h1]
      apply borderLoop_range _ _ _ (by omega)
      have hlen2 : 2 ≤ len := by omega
      have hcast : ((p.natAbs + 1 : ℕ) : ℤ) = |p| + 1 := by simp
      rw [hcast]
      by_cases hp : p < 0
      · rw [if_pos hp, abs_of_neg hp]
        nlinarith
      · rw [if_neg hp, abs_of_nonneg (by omega)]
        nlinarith

theorem borderInterpolate_inside (p len : ℤ) (h0 : 0 ≤ p) (h1 : p < len) :
    borderInterpolate p len = p := by
  unfold borderInterpolate
  rw [if_pos ⟨h0, h1⟩]

/-! ## The histogram loop -/

theorem getD_set_eq (l : List ℚ) (m k : ℕ) (a : ℚ) :
    (l.set m a).getD k 0 = if m = k ∧ k < l.length then a else l.getD k 0 := by
  simp only [List.getD_eq_getElem?_getD, List.getElem?_set]
  by_cases hmk : m = k
  · subst hmk
    by_cases hlt : m < l.length
    · simp [hlt]
    · simp [hlt, List.getElem?_eq_none (not_lt.mp hlt)]
  · simp [hmk]

theorem histAdd_spec (hist : List ℚ) (bin : ℤ) (w : ℚ) (h0 : 0 ≤ bin)
    (h1 : bin < hist.length) :
    ∃ h, histAdd hist bin w = some h ∧ h.length = hist.length ∧
      ∀ k : ℕ, h.getD k 0 = hist.getD k 0 + if bin = (k : ℤ) then w else 0 := by
  refine ⟨hist.set bin.toNat (hist.getD bin.toNat 0 + w), ?_, by simp, ?_⟩
  · unfold histAdd
    rw [if_pos ⟨h0, h1⟩]
  · intro k
    rw [getD_set_eq]
    have hb : (bin.toNat : ℤ) = bin := Int.toNat_of_nonneg h0
    by_cases hk : bin = (k : ℤ)
    · have hk' : bin.toNat = k := by omega
      have hlt : k < hist.length := by omega
      rw [if_pos ⟨hk', hlt⟩, if_pos hk, hk']
    · have hk' : ¬ bin.toNat = k := by omega
      rw [if_neg (fun h => hk' h.1), if_neg hk, add_zero]

theorem histLoop_spec (label_exp weights slice_map : Mat) (r : ℕ) (ori : ℚ) (i j n : ℕ)
    (os : List (ℕ × ℕ)) (st : List ℚ × List ℚ)
    (hl : st.1.length = n) (hr : st.2.length = n)
    (hbin : ∀ o ∈ os, 0 ≤ binAt label_exp r i j o ∧ binAt label_exp r i j o < n) :
    ∃ L R, histLoop label_exp weights slice_map r ori i j os st = some (L, R) ∧
      L.length = n ∧ R.length = n ∧
      (∀ k : ℕ, L.getD k 0 =
        st.1.getD k 0 + leftMass label_exp weights slice_map r ori i j os k) ∧
      (∀ k : ℕ, R.getD k 0 =
        st.2.getD k 0 + rightMass label_exp weights slice_map r ori i j os k) := by
  induction os generalizing st with
  | nil =>
    exact ⟨st.1, st.2, rfl, hl, hr, by simp [leftMass], by simp [rightMass]⟩
  | cons o os ih =>
    obtain ⟨hb0, hb1⟩ := hbin o (List.mem_cons_self o os)
    have hrest : ∀ o' ∈ os, 0 ≤ binAt label_exp r i j o' ∧ binAt label_exp r i j o' < n :=
      fun o' ho' => hbin o' (List.mem_cons_of_mem o ho')
    by_cases hside : inRightHalf slice_map ori o.1 o.2 = true
    · obtain ⟨h, hadd, hlen, hget⟩ :=
        histAdd_spec st.2 (binAt label_exp r i j o) (weights.get o.1 o.2) hb0 (by omega)
      have hstep : histStep label_exp weights slice_map r ori i j st o = some (st.1, h) := by
        unfold histStep
        dsimp only
        rw [if_pos hside]
        unfold binAt at hadd
        rw [hadd]
      obtain ⟨L, R, hloop, hL, hR, hLget, hRget⟩ := ih (st.1, h) hl (by rw [hlen, hr]) hrest
      refine ⟨L, R, ?_, hL, hR, ?_, ?_⟩
      · unfold histLoop
        rw [hstep]
        exact hloop
      · intro k
        rw [hLget k]
        simp [leftMass, hside]
      · intro k
        rw [hRget k]
        dsimp only
        rw [hget k]
        simp [rightMass, hside, add_assoc]
    · have hside' : inRightHalf slice_map ori o.1 o.2 = false := by
        simpa using hside
      obtain ⟨h, hadd, hlen, hget⟩ :=
        histAdd_spec st.1 (binAt label_exp r i j o) (weights.get o.1 o.2) hb0 (by omega)
      have hstep : histStep label_exp weights slice_map r ori i j st o = some (h, st.2) := by
        unfold histStep
        dsimp only
        rw [if_neg hside]
        unfold binAt at hadd
        rw [hadd]
      obtain ⟨L, R, hloop, hL, hR, hLget, hRget⟩ := ih (h, st.2) (by rw [hlen, hl]) hr hrest
      refine ⟨L, R, ?_, hL, hR, ?_, ?_⟩
      · unfold histLoop
        rw [hstep]
        exact hloop
      · intro k
        rw [hLget k]
        dsimp only
        rw [hget k]
        simp [leftMass, hside', add_assoc]
      · intro k
        rw [hRget k]
        simp [rightMass, hside']

/-! ## Smoothing with the default kernel -/

theorem optSearch_ge (fuel n : ℕ) : n ≤ optSearch fuel n := by
  induction fuel generalizing n with
  | zero => exact le_refl n
  | succ fuel ih =>
    unfold optSearch
    split_ifs
    · exact le_refl n
    · exact le_trans (Nat.le_succ n) (ih (n + 1))

theorem getOptimalDFTSize_ge (m : ℤ) (hm : 0 ≤ m) : m ≤ getOptimalDFTSize m := by
  unfold getOptimalDFTSize
  rw [if_neg (by omega)]
  have h := optSearch_ge m.toNat (max m.toNat 1)
  have h2 : m.toNat ≤ max m.toNat 1 := le_max_left _ _
  have h3 : (m.toNat : ℤ) = m := Int.toNat_of_nonneg hm
  omega

theorem getOptimalDFTSize_seven : getOptimalDFTSize 7 = 8 := by decide

theorem width_default (n : ℕ) (hn : 1 ≤ n) :
    (n : ℤ) + 6 ≤ getOptimalDFTSize ((n : ℤ) + 7 - 1) ∧
      8 ≤ getOptimalDFTSize ((n : ℤ) + 7 - 1) := by
  have h := getOptimalDFTSize_ge ((n : ℤ) + 7 - 1) (by omega)
  refine ⟨by omega, ?_⟩
  by_cases h1 : n = 1
  · subst h1
    have : ((1 : ℕ) : ℤ) + 7 - 1 = 7 := by norm_num
    rw [this, getOptimalDFTSize_seven]
  · omega

theorem impulse_resp_rows : impulse_resp.rows = 1 := rfl

theorem impulse_resp_cols : impulse_resp.cols = 7 := rfl

theorem impulse_resp_data : impulse_resp.data = [0, 0, 0, 1, 0, 0, 0] := by decide

theorem convolveDFT_default (hist : List ℚ) (hn : 1 ≤ hist.length) :
    convolveDFT (Mat.ofRow hist) impulse_resp SAME_SIZE =
      some ⟨1, hist.length, smoothDefault hist⟩ := by
  obtain ⟨h1, h2⟩ := width_default hist.length hn
  unfold convolveDFT
  simp only [Mat.ofRow, impulse_resp_cols, impulse_resp_rows, SAME_SIZE]
  have e : ((7 : ℕ) : ℤ) = 7 := rfl
  rw [e]
  rw [if_neg (by omega), if_neg (by simp)]
  simp [smoothDefault, padLen]

theorem cconv_length (N : ℕ) (A B : List ℚ) : (cconv N A B).length = N := by
  simp [cconv]

theorem padLen_ge (n : ℕ) (hn : 1 ≤ n) : n ≤ padLen n := by
  obtain ⟨h1, _⟩ := width_default n hn
  unfold padLen
  omega

theorem smoothDefault_length (hist : List ℚ) (hn : 1 ≤ hist.length) :
    (smoothDefault hist).length = hist.length := by
  have h := padLen_ge hist.length hn
  unfold smoothDefault
  rw [List.length_take, List.length_drop, cconv_length]
  have : (padLen hist.length - hist.length) / 2 ≤ padLen hist.length - hist.length :=
    Nat.div_le_self _ _
  omega

theorem getD_nonneg (l : List ℚ) (hl : ∀ x ∈ l, 0 ≤ x) (k : ℕ) : 0 ≤ l.getD k 0 := by
  rcases getD_mem_or_zero l k with h | h
  · rw [h]
  · exact hl _ h

theorem tdiv_size (r : ℕ) : (2 * (r : ℤ) + 1).tdiv 2 = r := by
  rw [Int.tdiv_eq_ediv (by omega) (by omega)]
  omega

theorem tdiv_neg_size (r : ℕ) : (-(2 * (r : ℤ) + 1)).tdiv 2 = -(r : ℤ) := by
  rw [Int.neg_tdiv, tdiv_size]

theorem slice_get (P : Prims) (r n_ori u v : ℕ) (hu : u < 2 * r + 1) (hv : v < 2 * r + 1) :
    (orientation_slice_map P r n_ori).get u v =
      P.atan2 ((((r : ℤ) - u : ℤ)) : ℚ) ((((v : ℤ) - r : ℤ)) : ℚ) / M_PI * 180 := by
  unfold orientation_slice_map
  dsimp only
  rw [Mat.get_tabulate _ _ _ _ _ hu hv, tdiv_size, tdiv_neg_size]
  congr 3
  push_cast
  ring

theorem weights_get (r u v : ℕ) (hu : u < 2 * r + 1) (hv : v < 2 * r + 1) :
    (weight_matrix_disc r).get u v =
      if u = r ∧ v = r then 0
      else if ((u : ℤ) - r) * ((u : ℤ) - r) + ((v : ℤ) - r) * ((v : ℤ) - r) ≤ (r : ℤ) * r
        then 1 else 0 := by
  unfold weight_matrix_disc
  dsimp only
  rw [Mat.get_tabulate _ _ _ _ _ hu hv]

theorem mem_discOffsets {r : ℕ} {o : ℕ × ℕ} :
    o ∈ discOffsets r ↔ o.1 < 2 * r + 1 ∧ o.2 < 2 * r + 1 := by
  unfold discOffsets
  simp only [List.mem_flatMap, List.mem_map, List.mem_range]
  constructor
  · rintro ⟨u, hu, v, hv, rfl⟩
    exact ⟨hu, hv⟩
  · rintro ⟨hu, hv⟩
    exact ⟨o.1, hu, o.2, hv, rfl⟩

theorem list_ext_getD (l1 l2 : List ℚ) (hlen : l1.length = l2.length)
    (h : ∀ k, l1.getD k 0 = l2.getD k 0) : l1 = l2 := by
  apply List.ext_getElem hlen
  intro k h1 h2
  have := h k
  rwa [List.getD_eq_getElem _ _ h1, List.getD_eq_getElem _ _ h2] at this

theorem copyMakeBorder_reflect_nonempty (label : Mat) (r : ℕ) (hrows : 0 < label.rows)
    (hcols : 0 < label.cols) :
    copyMakeBorder_reflect label r r r r = some (reflectPad label r r r r) := by
  unfold copyMakeBorder_reflect
  rw [if_neg]
  rintro ⟨h | h, _⟩ <;> omega

theorem label_exp_get (label : Mat) (r i0 j0 : ℕ) (hi : i0 < label.rows) (hj : j0 < label.cols)
    (o : ℕ × ℕ) (ho : o ∈ discOffsets r) :
    (reflectPad label r r r r).get (i0 + r + o.1 - r) (j0 + r + o.2 - r) =
      label.get (borderInterpolate (((i0 + o.1 : ℕ) : ℤ) - (r : ℤ)) label.rows).toNat
        (borderInterpolate (((j0 + o.2 : ℕ) : ℤ) - (r : ℤ)) label.cols).toNat := by
  obtain ⟨hu, hv⟩ := mem_discOffsets.mp ho
  unfold reflectPad
  rw [Mat.get_tabulate _ _ _ _ _ (by omega) (by omega)]
  have e1 : i0 + r + o.1 - r = i0 + o.1 := by omega
  have e2 : j0 + r + o.2 - r = j0 + o.2 := by omega
  rw [e1, e2]

theorem cint_zero : cint 0 = 0 := by simp [cint]

theorem cint_one : cint 1 = 1 := by simp [cint]

theorem gradientAt_some (P : Prims) (label : Mat) (r n_ori num_bins : ℕ) (hn : 1 ≤ num_bins)
    (hvalid : ∀ i j, i < label.rows → j < label.cols →
      0 ≤ cint (label.get i j) ∧ cint (label.get i j) < num_bins)
    (ori : ℚ) (i0 j0 : ℕ) (hi : i0 < label.rows) (hj : j0 < label.cols) :
    ∃ x, gradientAt (reflectPad label r r r r) (weight_matrix_disc r)
      (orientation_slice_map P r n_ori) r num_bins impulse_resp ori (i0 + r) (j0 + r) =
      some x := by
  obtain ⟨L, R, hloop, hLlen, hRlen, _, _⟩ :=
    histLoop_spec (reflectPad label r r r r) (weight_matrix_disc r)
      (orientation_slice_map P r n_ori) r ori (i0 + r) (j0 + r) num_bins (discOffsets r)
      (List.replicate num_bins 0, List.replicate num_bins 0) (by simp) (by simp)
      (by
        intro o ho
        unfold binAt
        rw [label_exp_get label r i0 j0 hi hj o ho]
        have h1 := borderInterpolate_range (((i0 + o.1 : ℕ) : ℤ) - (r : ℤ)) label.rows
          (by exact_mod_cast Nat.lt_of_le_of_lt (Nat.zero_le _) hi)
        have h2 := borderInterpolate_range (((j0 + o.2 : ℕ) : ℤ) - (r : ℤ)) label.cols
          (by exact_mod_cast Nat.lt_of_le_of_lt (Nat.zero_le _) hj)
        exact hvalid _ _ (by omega) (by omega))
  refine ⟨chiSquared num_bins (smoothDefault L) (smoothDefault R), ?_⟩
  unfold gradientAt
  rw [hloop]
  dsimp only
  rw [if_neg (by rw [impulse_resp_cols]; norm_num),
    convolveDFT_default R (by omega), convolveDFT_default L (by omega)]

theorem padLen_two : padLen 2 = 7 := by decide

theorem smoothDefault_two (x y : ℚ) : smoothDefault [x, y] = [0, x] := by
  unfold smoothDefault
  simp only [List.length_cons, List.length_nil, zero_add, Nat.reduceAdd, padLen_two,
    impulse_resp_data, cconv]
  simp [List.range_succ]

/-! ## Zero-mean normalisation -/

theorem sum_map_sub_const (l : List ℚ) (c : ℚ) :
    (l.map fun v => v - c).sum = l.sum - (l.length : ℚ) * c := by
  induction l with
  | nil => simp
  | cons a t ih =>
    simp only [List.map_cons, List.sum_cons, List.length_cons, ih]
    push_cast
    ring

theorem sum_abs_pos_of_ne (l : List ℚ) (c : ℚ) (a b : ℚ) (ha : a ∈ l) (hb : b ∈ l)
    (hab : a ≠ b) : 0 < (l.map fun v => |v - c|).sum := by
  have hnn : ∀ x ∈ l.map (fun v => |v - c|), 0 ≤ x := by
    intro x hx
    rcases List.mem_map.mp hx with ⟨v, _, rfl⟩
    exact abs_nonneg _
  rcases lt_or_eq_of_le (List.sum_nonneg hnn) with h | h
  · exact h
  · exfalso
    have hz := sum_eq_zero_of_nonneg hnn h.symm
    have h1 : |a - c| = 0 := hz _ (List.mem_map.mpr ⟨a, ha, rfl⟩)
    have h2 : |b - c| = 0 := hz _ (List.mem_map.mpr ⟨b, hb, rfl⟩)
    rw [abs_eq_zero] at h1 h2
    exact hab (by linarith)

theorem normalizeDistr_zero_mean (m : Mat) (hwf : m.data.length = m.rows * m.cols)
    (a b : ℚ) (ha : a ∈ m.data) (hb : b ∈ m.data) (hab : a ≠ b) :
    ∃ out, normalizeDistr m ZERO = some out ∧ out.rows = m.rows ∧ out.cols = m.cols ∧
      out.data.length = m.data.length ∧ out.data.sum = 0 ∧
      (out.data.map fun v => |v|).sum = 1 := by
  set μ : ℚ := m.data.sum / ((m.rows * m.cols : ℕ) : ℚ) with hμ
  set S : ℚ := (m.data.map fun v => |v - μ|).sum with hS
  have hSpos : 0 < S := sum_abs_pos_of_ne m.data μ a b ha hb hab
  have hlen : 0 < m.data.length := List.length_pos_of_mem ha
  have hshift : (m.data.map fun v => v * 1 + 1 * (-μ) + 0) = m.data.map fun v => v - μ := by
    apply List.map_congr_left
    intro v _
    ring
  have habs : ((m.data.map fun v => v - μ).map fun v => |v|).sum = S := by
    rw [List.map_map]
    rfl
  refine ⟨⟨m.rows, m.cols, (m.data.map fun v => v - μ).map fun v => (1 / S) * v / 1⟩,
    ?_, rfl, rfl, by simp, ?_, ?_⟩
  · unfold normalizeDistr
    simp only [ZERO, if_true]
    rw [← hμ, hshift, habs, if_neg hSpos.ne']
  · have : ((m.data.map fun v => v - μ).map fun v => (1 / S) * v / 1) =
        (m.data.map fun v => v - μ).map fun v => (1 / S) * v := by
      apply List.map_congr_left
      intro v _
      rw [div_one]
    dsimp only
    rw [this, List.sum_map_mul_left]
    simp only [List.map_id']
    rw [sum_map_sub_const, hμ, ← hwf]
    have hl : (m.data.length : ℚ) ≠ 0 := by exact_mod_cast hlen.ne'
    field_simp
  · dsimp only
    rw [List.map_map, List.map_map]
    have : (m.data.map (((fun v => |v|) ∘ fun v => 1 / S * v / 1) ∘ fun v => v - μ)) =
        m.data.map fun v => (1 / S) * |v - μ| := by
      apply List.map_congr_left
      intro v _
      simp only [Function.comp_def, div_one]
      rw [abs_mul, abs_of_pos (by positivity : (0 : ℚ) < 1 / S)]
    rw [this, List.sum_map_mul_left, ← hS]
    field_simp

theorem getGaussianKernel_getD (P : Prims) (n : ℕ) (sigma : ℚ) (hs : 0 < sigma)
    (hpos : ∀ t, 0 < P.exp t) (hn : 0 < n) :
    ∃ S : ℚ, 0 < S ∧ ∀ i, i < n →
      (getGaussianKernel P n sigma).getD i 0 =
        P.exp (-(1 / 2) / (sigma * sigma) * ((i : ℚ) - ((n : ℚ) - 1) * (1 / 2)) *
          ((i : ℚ) - ((n : ℚ) - 1) * (1 / 2))) * (1 / S) := by
  rw [getGaussianKernel_pos_sigma P n sigma hs]
  set cf : List ℚ := (List.range n).map fun (i : ℕ) =>
    P.exp (-(1 / 2) / (sigma * sigma) * ((i : ℚ) - ((n : ℚ) - 1) * (1 / 2)) *
      ((i : ℚ) - ((n : ℚ) - 1) * (1 / 2))) with hcf
  have hS : 0 < cf.sum := by
    apply List.sum_pos
    · intro x hx
      rcases List.mem_map.mp hx with ⟨i, _, rfl⟩
      exact hpos _
    · intro h
      have : cf.length = 0 := by rw [h]; rfl
      simp [hcf] at this
      omega
  refine ⟨cf.sum, hS, ?_⟩
  intro i hi
  rw [List.getD_eq_getElem _ _ (by simpa [hcf] using hi)]
  simp [hcf]

theorem deriv_entries_differ (P : Prims) (h : ℕ) (hh : 1 ≤ h) (sigma : ℚ) (hs : 0 < sigma)
    (hpos : ∀ t, 0 < P.exp t) (hmax : ∀ t, t ≤ 0 → P.exp t ≤ P.exp 0) :
    (getGaussianKernel P (2 * h + 1) sigma).getD 0 0 * ((h : ℚ) - ((0 : ℕ) : ℚ)) ≠
      (getGaussianKernel P (2 * h + 1) sigma).getD (2 * h) 0 * ((h : ℚ) - ((2 * h : ℕ) : ℚ)) ∧
    (getGaussianKernel P (2 * h + 1) sigma).getD h 0 *
        (((h : ℕ) : ℚ) - (h : ℚ)) * (((h : ℕ) : ℚ) - (h : ℚ)) / sigma -
      (getGaussianKernel P (2 * h + 1) sigma).getD h 0 ≠
    (getGaussianKernel P (2 * h + 1) sigma).getD (h + 1) 0 *
      ((((h + 1 : ℕ) : ℚ) - (h : ℚ)) * (((h + 1 : ℕ) : ℚ) - (h : ℚ)) / sigma - 1) := by
  obtain ⟨S, hS, hget⟩ := getGaussianKernel_getD P (2 * h + 1) sigma hs hpos (by omega)
  have hhq : (1 : ℚ) ≤ h := by exact_mod_cast hh
  have hSinv : 0 < 1 / S := by positivity
  constructor
  · have hA : 0 < (getGaussianKernel P (2 * h + 1) sigma).getD 0 0 := by
      rw [hget 0 (by omega)]
      exact mul_pos (hpos _) hSinv
    have hB : 0 < (getGaussianKernel P (2 * h + 1) sigma).getD (2 * h) 0 := by
      rw [hget (2 * h) (by omega)]
      exact mul_pos (hpos _) hSinv
    have hhpos : (0 : ℚ) < h := by linarith
    have hAh := mul_pos hA hhpos
    have hBh := mul_pos hB hhpos
    push_cast
    intro heq
    nlinarith
  · rw [hget h (by omega), hget (h + 1) (by omega)]
    have e0 : -(1 / 2) / (sigma * sigma) * (((h : ℕ) : ℚ) - (((2 * h + 1 : ℕ) : ℚ) - 1) * (1 / 2)) *
        (((h : ℕ) : ℚ) - (((2 * h + 1 : ℕ) : ℚ) - 1) * (1 / 2)) = 0 := by
      push_cast
      ring
    have e1 : -(1 / 2) / (sigma * sigma) *
        (((h + 1 : ℕ) : ℚ) - (((2 * h + 1 : ℕ) : ℚ) - 1) * (1 / 2)) *
        (((h + 1 : ℕ) : ℚ) - (((2 * h + 1 : ℕ) : ℚ) - 1) * (1 / 2)) =
        -(1 / 2) / (sigma * sigma) := by
      push_cast
      ring
    rw [e0, e1]
    have hneg : -(1 / 2) / (sigma * sigma) ≤ 0 := by
      apply div_nonpos_of_nonpos_of_nonneg
      · norm_num
      · positivity
    have hle := hmax _ hneg
    have hp1 := hpos (-(1 / 2) / (sigma * sigma))
    have hsi : 0 < 1 / sigma := by positivity
    push_cast
    intro heq
    have e2 : ((h : ℚ) + 1 - h) * ((h : ℚ) + 1 - h) / sigma = 1 / sigma := by ring
    rw [e2] at heq
    have e3 : P.exp 0 * (1 / S) * ((h : ℚ) - h) * ((h : ℚ) - h) / sigma = 0 := by
      rw [sub_self]; simp
    rw [e3] at heq
    have : P.exp 0 = P.exp (-(1 / 2) / (sigma * sigma)) * (1 - 1 / sigma) := by
      have hSne : S ≠ 0 := hS.ne'
      field_simp at heq ⊢
      nlinarith
    nlinarith

/-- The derivative filters away from the degenerate length: for every
half-length `h ≥ 1`, every `sigma > 0` and derivative order 1 or 2, with the
Hilbert transform off, `gaussianFilter1D` returns a column of `2h + 1` entries
whose sum is 0 and whose absolute values sum to 1. The library's `exp` enters
through two properties: it is positive, and `exp t ≤ exp 0` for `t ≤ 0`. -/
theorem gaussianFilter1D_deriv_sum (P : Prims) (h : ℕ) (hh : 1 ≤ h) (sigma : ℚ)
    (hs : 0 < sigma) (deriv : ℕ) (hd : deriv = 1 ∨ deriv = 2)
    (hpos : ∀ t, 0 < P.exp t) (hmax : ∀ t, t ≤ 0 → P.exp t ≤ P.exp 0) :
    ∃ out, gaussianFilter1D P h sigma deriv HILBRT_OFF = some out ∧
      out.rows = 2 * h + 1 ∧ out.cols = 1 ∧ out.data.length = 2 * h + 1 ∧
      out.data.sum = 0 ∧ (out.data.map fun v => |v|).sum = 1 := by
  obtain ⟨hne1, hne2⟩ := deriv_entries_differ P h hh sigma hs hpos hmax
  rcases hd with rfl | rfl
  · obtain ⟨out, hout, hr, hc, hl, hsum, habs⟩ := normalizeDistr_zero_mean
      ⟨2 * h + 1, 1, (List.range (2 * h + 1)).map fun (i : ℕ) =>
        (getGaussianKernel P (2 * h + 1) sigma).getD i 0 * ((h : ℚ) - (i : ℚ))⟩
      (by simp) _ _
      (List.mem_map.mpr ⟨0, List.mem_range.mpr (by omega), rfl⟩)
      (List.mem_map.mpr ⟨2 * h, List.mem_range.mpr (by omega), rfl⟩) hne1
    refine ⟨out, ?_, hr, hc, by simpa using hl, hsum, habs⟩
    simp only [gaussianFilter1D, HILBRT_OFF, if_true]
    simpa using hout
  · obtain ⟨out, hout, hr, hc, hl, hsum, habs⟩ := normalizeDistr_zero_mean
      ⟨2 * h + 1, 1, (List.range (2 * h + 1)).map fun (i : ℕ) =>
        (getGaussianKernel P (2 * h + 1) sigma).getD i 0 *
          (((i : ℚ) - (h : ℚ)) * ((i : ℚ) - (h : ℚ)) / sigma - 1)⟩
      (by simp) _ _
      (List.mem_map.mpr ⟨h, List.mem_range.mpr (by omega), rfl⟩)
      (List.mem_map.mpr ⟨h + 1, List.mem_range.mpr (by omega), rfl⟩)
      (by
        intro heq
        apply hne2
        rw [← heq]
        ring)
    refine ⟨out, ?_, hr, hc, by simpa using hl, hsum, habs⟩
    simp only [gaussianFilter1D, HILBRT_OFF]
    simpa using hout

/-- The derivative filter of order 1 with `h = 2`, `sigma = 1`. -/
theorem gaussianFilter1D_deriv_sum_witness :
    ∃ out, gaussianFilter1D samplePrims 2 1 1 HILBRT_OFF = some out ∧
      out.rows = 2 * 2 + 1 ∧ out.cols = 1 ∧ out.data.length = 2 * 2 + 1 ∧
      out.data.sum = 0 ∧ (out.data.map fun v => |v|).sum = 1 :=
  gaussianFilter1D_deriv_sum samplePrims 2 (by norm_num) 1 (by norm_num) 1 (Or.inl rfl)
    (by
      intro t
      show 0 < 1 / (1 + t * t)
      exact div_pos one_pos (by linarith [mul_self_nonneg t]))
    (by
      intro t _
      show 1 / (1 + t * t) ≤ 1 / (1 + 0 * 0)
      have h1 : (0 : ℚ) < 1 + t * t := by linarith [mul_self_nonneg t]
      rw [div_le_div_iff₀ h1 (by norm_num)]
      nlinarith [mul_self_nonneg t])

/-! ## The disc weight mask -/

/-- C14. For every radius `r`, `weight_matrix_disc(r)` is a `(2r+1) × (2r+1)`
array whose entry `(i, j)` is 1 exactly when `(i-r)² + (j-r)² ≤ r²` and
`(i, j) ≠ (r, r)`, and 0 otherwise; hence it is invariant under the rotation
by 180 degrees, `w[i][j] = w[2r-i][2r-j]`. -/
theorem weight_matrix_disc_spec (r : ℕ) :
    (weight_matrix_disc r).rows = 2 * r + 1 ∧ (weight_matrix_disc r).cols = 2 * r + 1 ∧
    (weight_matrix_disc r).data.length = (2 * r + 1) * (2 * r + 1) ∧
    (∀ i j, i < 2 * r + 1 → j < 2 * r + 1 →
      (weight_matrix_disc r).get i j =
        if (((i : ℤ) - r) * ((i : ℤ) - r) + ((j : ℤ) - r) * ((j : ℤ) - r) ≤ (r : ℤ) * r) ∧
            ¬ (i = r ∧ j = r) then 1 else 0) ∧
    (∀ i j, i < 2 * r + 1 → j < 2 * r + 1 →
      (weight_matrix_disc r).get i j = (weight_matrix_disc r).get (2 * r - i) (2 * r - j)) := by
  refine ⟨rfl, rfl, Mat.tabulate_data_length _ _ _, ?_, ?_⟩
  · intro i j hi hj
    rw [weights_get r i j hi hj]
    by_cases hc : i = r ∧ j = r
    · rw [if_pos hc, if_neg]
      exact fun h => h.2 hc
    · rw [if_neg hc]
      by_cases hd : ((i : ℤ) - r) * ((i : ℤ) - r) + ((j : ℤ) - r) * ((j : ℤ) - r) ≤ (r : ℤ) * r
      · rw [if_pos hd, if_pos ⟨hd, hc⟩]
      · rw [if_neg hd, if_neg (fun h => hd h.1)]
  · intro i j hi hj
    rw [weights_get r i j hi hj, weights_get r (2 * r - i) (2 * r - j) (by omega) (by omega)]
    have e1 : ((2 * r - i : ℕ) : ℤ) - r = -((i : ℤ) - r) := by omega
    have e2 : ((2 * r - j : ℕ) : ℤ) - r = -((j : ℤ) - r) := by omega
    rw [e1, e2, neg_mul_neg, neg_mul_neg]
    have e3 : (2 * r - i = r ∧ 2 * r - j = r) ↔ (i = r ∧ j = r) := by omega
    simp only [e3]

/-! ## Shape errors and degenerate sums -/

/-- C15. Given a matrix with more than one row and more than one column,
`hilbertTransform1D` produces no output: its own test only prints a message,
and the call of `convolveDFT` that follows ends in an OpenCV assertion
(`mulSpectrums` on an array of several rows and the one-row Hilbert kernel). -/
theorem hilbertTransform1D_rejects_2D (input : Mat) (label : Bool)
    (hr : 1 < input.rows) (hc : 1 < input.cols) :
    hilbertTransform1D input label = none := by
  have hc1 : ¬ input.cols = 1 := by omega
  have hconv : ∀ B : Mat, convolveDFT input B label = none := by
    intro B
    unfold convolveDFT
    dsimp only
    by_cases h1 : getOptimalDFTSize ((input.cols : ℤ) + B.cols - 1) - input.cols - 1 < 0 ∨
        getOptimalDFTSize ((input.cols : ℤ) + B.cols - 1) - B.cols - 1 < 0
    · rw [if_pos h1]
    · rw [if_neg h1, if_pos (Or.inl (by omega))]
  unfold hilbertTransform1D
  dsimp only
  rw [if_neg hc1, hconv]

/-- C15 on a `2 × 2` input. -/
theorem hilbertTransform1D_rejects_2D_witness :
    hilbertTransform1D ⟨2, 2, [1, 2, 3, 4]⟩ SAME_SIZE = none :=
  hilbertTransform1D_rejects_2D ⟨2, 2, [1, 2, 3, 4]⟩ SAME_SIZE (by decide) (by decide)

theorem sum_map_abs_zero (l : List ℚ) (h : ∀ x ∈ l, x = 0) : (l.map fun v => |v|).sum = 0 := by
  apply List.sum_eq_zero
  intro x hx
  rcases List.mem_map.mp hx with ⟨v, hv, rfl⟩
  rw [h v hv, abs_zero]

theorem sum_const (l : List ℚ) (c : ℚ) (h : ∀ x ∈ l, x = c) : l.sum = (l.length : ℚ) * c := by
  induction l with
  | nil => simp
  | cons a t ih =>
    rw [List.sum_cons, ih fun x hx => h x (List.mem_cons_of_mem a hx),
      h a (List.mem_cons_self a t)]
    simp only [List.length_cons]
    push_cast
    ring

/-- C17. Failing inputs: when the sum of absolute values is zero, `normalizeDistr`
has no guard and divides by it (the `none` of the embedding). This is so for
every all-zero input under either policy and for every constant input under
the zero-mean policy, for instance the `1 × 3` inputs `[0, 0, 0]` and
`[2, 2, 2]`. -/
theorem normalizeDistr_zero_sum :
    (∀ (m : Mat) (label : Bool), (∀ x ∈ m.data, x = 0) → normalizeDistr m label = none) ∧
    (∀ (m : Mat) (c : ℚ), m.data.length = m.rows * m.cols → (∀ x ∈ m.data, x = c) →
      normalizeDistr m ZERO = none) ∧
    normalizeDistr ⟨1, 3, [0, 0, 0]⟩ NON_ZERO = none ∧
    normalizeDistr ⟨1, 3, [2, 2, 2]⟩ ZERO = none := by
  have hconst : ∀ (m : Mat) (c : ℚ), m.data.length = m.rows * m.cols → (∀ x ∈ m.data, x = c) →
      normalizeDistr m ZERO = none := by
    intro m c hwf hc
    have hshift : ∀ x ∈ m.data.map (fun v =>
        v * 1 + 1 * (-(m.data.sum / ((m.rows * m.cols : ℕ) : ℚ))) + 0), x = 0 := by
      intro x hx
      rcases List.mem_map.mp hx with ⟨v, hv, rfl⟩
      rw [hc v hv, sum_const m.data c hc, ← hwf]
      by_cases hl : (m.data.length : ℚ) = 0
      · have : m.data.length = 0 := by exact_mod_cast hl
        rw [List.length_eq_zero] at this
        rw [this] at hv
        cases hv
      · field_simp
    unfold normalizeDistr
    simp only [ZERO, if_true]
    rw [sum_map_abs_zero _ hshift, if_pos rfl]
  refine ⟨?_, hconst, ?_, ?_⟩
  · intro m label h0
    cases label
    · unfold normalizeDistr
      simp only [NON_ZERO, ZERO, Bool.false_eq_true, if_false]
      rw [sum_map_abs_zero _ h0, if_pos rfl]
    · have hshift : ∀ x ∈ m.data.map (fun v =>
          v * 1 + 1 * (-(m.data.sum / ((m.rows * m.cols : ℕ) : ℚ))) + 0), x = 0 := by
        intro x hx
        rcases List.mem_map.mp hx with ⟨v, hv, rfl⟩
        rw [h0 v hv, List.sum_eq_zero h0]
        simp
      unfold normalizeDistr
      simp only [ZERO, if_true]
      rw [sum_map_abs_zero _ hshift, if_pos rfl]
  · decide!
  · decide!

/-! ## The default kernel on two bins -/

/-- C12. A failing input: for a histogram `[x, y]` of two bins, the same-size
`convolveDFT` with the default length-7 impulse kernel returns `[0, x]`, not the
histogram itself; for instance `[3, 5]` becomes `[0, 3]`. -/
theorem convolveDFT_default_two_bins :
    (∀ x y : ℚ, convolveDFT (Mat.ofRow [x, y]) impulse_resp SAME_SIZE = some ⟨1, 2, [0, x]⟩) ∧
    convolveDFT (Mat.ofRow [3, 5]) impulse_resp SAME_SIZE = some ⟨1, 2, [0, 3]⟩ ∧
    (⟨1, 2, [0, 3]⟩ : Mat) ≠ Mat.ofRow [3, 5] := by
  have h : ∀ x y : ℚ,
      convolveDFT (Mat.ofRow [x, y]) impulse_resp SAME_SIZE = some ⟨1, 2, [0, x]⟩ := by
    intro x y
    rw [convolveDFT_default [x, y] (by simp), smoothDefault_two]
    rfl
  exact ⟨h, h 3 5, by decide!⟩

/-! ## The half-open slice test -/

theorem inRightHalf_iff (slice_map : Mat) (ori : ℚ) (u v : ℕ) :
    inRightHalf slice_map ori u v = true ↔
      (ori - 180 < slice_map.get u v ∧ slice_map.get u v ≤ ori) := by
  unfold inRightHalf
  simp only [decide_eq_true_eq, gt_iff_lt]

/-- C20, counterexample. The right histogram `[1e-6, 0]` has the sum `1e-6`, below
`1e-5` and not zero. The source divides it by its sum: its first normalised bin
is 1 and the score against `[0, 1]` is 1. Had the sum been treated as 1.0, the
bin would have stayed `1e-6` and the score would be `1/2 + 5e-13`. -/
theorem chiSquared_small_sum_divided :
    normBin 2 [1 / 1000000, 0] 0 = 1 ∧
    chiSquared 2 [0, 1] [1 / 1000000, 0] = 1 ∧
    chiSquared_sumClamp_spec 2 [0, 1] [1 / 1000000, 0] = 1 / 2 + 1 / 2000000000000 ∧
    chiSquared 2 [0, 1] [1 / 1000000, 0] ≠ chiSquared_sumClamp_spec 2 [0, 1] [1 / 1000000, 0] := by
  decide!

/-- C20, as the source has it. In the reduction of `gradient_hist_2D` a smoothed
histogram enters undivided only when its sum over the `num_bins` bins is
exactly 0; for every other sum, also one in `(0, 1e-5)`, every bin is divided
by the sum, so that the normalised bins add up to 1. The threshold `1e-5` is
applied to the chi-squared denominator `p_r + p_l` only. -/
theorem chiSquared_normalisation (num_bins : ℕ) (L R hist : List ℚ) :
    chiSquared num_bins L R =
      ((List.range num_bins).map fun nn =>
        (1 / 2) * ((normBin num_bins R nn - normBin num_bins L nn) *
            (normBin num_bins R nn - normBin num_bins L nn)) /
          (if normBin num_bins R nn + normBin num_bins L nn < 1 / 100000 then 1
           else normBin num_bins R nn + normBin num_bins L nn)).sum ∧
    (((List.range num_bins).map fun k => hist.getD k 0).sum = 0 →
      ∀ k, normBin num_bins hist k = hist.getD k 0) ∧
    (((List.range num_bins).map fun k => hist.getD k 0).sum ≠ 0 →
      (∀ k, normBin num_bins hist k =
        hist.getD k 0 / ((List.range num_bins).map fun k => hist.getD k 0).sum) ∧
      ((List.range num_bins).map fun k => normBin num_bins hist k).sum = 1) := by
  refine ⟨rfl, ?_, ?_⟩
  · intro h k
    unfold normBin
    rw [if_pos h]
  · intro h
    have hk : ∀ k, normBin num_bins hist k =
        hist.getD k 0 / ((List.range num_bins).map fun k => hist.getD k 0).sum := by
      intro k
      unfold normBin
      rw [if_neg h]
    refine ⟨hk, ?_⟩
    have : ((List.range num_bins).map fun k => normBin num_bins hist k) =
        (List.range num_bins).map fun k =>
          (1 / ((List.range num_bins).map fun k => hist.getD k 0).sum) * hist.getD k 0 := by
      apply List.map_congr_left
      intro k _
      rw [hk k]
      ring
    rw [this, List.sum_map_mul_left]
    exact one_div_mul_cancel h

/-! ## Arguments of `gradient_hist_2D` -/

/-- C16, counterexample. With a zero orientation count `gradient_hist_2D` does not
fail: on a `1 × 1` label map with radius 1 and one bin it returns the empty
list of gradient maps. -/
theorem gradient_hist_2D_zero_orientations :
    gradient_hist_2D_int samplePrims ⟨1, 1, [0]⟩ 1 0 1 impulse_resp = some [] := by
  decide!

/-- C16, as the source has it. `gradient_hist_2D` has no check of its arguments.
With a negative disc radius it produces no gradient maps, because the matrix
constructor in `weight_matrix_disc` raises on the negative size. With a zero
orientation count (non-negative radius and bin count, non-empty label map) it
does not fail and returns an empty list of gradient maps. -/
theorem gradient_hist_2D_int_arguments :
    (∀ (P : Prims) (label : Mat) (r n_ori num_bins : ℤ) (gaussian_kernel : Mat),
      r < 0 → gradient_hist_2D_int P label r n_ori num_bins gaussian_kernel = none) ∧
    (∀ (P : Prims) (label : Mat) (r num_bins : ℤ) (gaussian_kernel : Mat),
      0 ≤ r → 0 ≤ num_bins → 0 < label.rows → 0 < label.cols →
      gradient_hist_2D_int P label r 0 num_bins gaussian_kernel = some []) := by
  constructor
  · intro P label r n_ori num_bins gaussian_kernel hr
    unfold gradient_hist_2D_int
    rw [if_pos (Or.inr (Or.inl (by omega)))]
  · intro P label r num_bins gaussian_kernel hr hn hrows hcols
    unfold gradient_hist_2D_int
    rw [if_neg (by omega)]
    unfold gradient_hist_2D
    dsimp only
    rw [copyMakeBorder_reflect_nonempty label r.toNat hrows hcols]
    simp [standard_filter_orientations, DEG, oriLoop, collect]

/-! ## The working half-length of `gaussianFilter2D` -/

theorem gaussianFilter2D_working (P : Prims) (half_len : ℕ) (ori sigma_x sigma_y : ℚ)
    (deriv : ℕ) (hlbrt : Bool) :
    gaussianFilter2D P half_len ori sigma_x sigma_y deriv hlbrt =
      if workingHalfLen P half_len ori < 0 then none
      else
        match gaussianFilter1D P (workingHalfLen P half_len ori).toNat sigma_x 0 HILBRT_OFF,
              gaussianFilter1D P (workingHalfLen P half_len ori).toNat sigma_y deriv hlbrt with
        | some output_x, some output_y =>
          match rotate_2D_crop P
              (Mat.tabulate output_x.rows output_y.rows fun i j =>
                output_x.get i 0 * output_y.get j 0)
              ori (2 * (half_len : ℤ) + 1) (2 * (half_len : ℤ) + 1) DEG with
          | none => none
          | some output =>
            if deriv > 0 then normalizeDistr output ZERO else normalizeDistr output NON_ZERO
        | _, _ => none := rfl

theorem cint_of_mem_Ico (x : ℚ) (z : ℤ) (h0 : 0 ≤ x) (h1 : (z : ℚ) ≤ x) (h2 : x < (z : ℚ) + 1) :
    cint x = z := by
  unfold cint
  rw [if_pos h0, Int.floor_eq_iff]
  exact ⟨h1, h2⟩

/-- C19. A failing input: `gaussianFilter2D` with half-length 6 and orientation 90
(degrees, the unit in which `gaussianFilters` produces it and in which
`rotate_2D_crop` consumes it). `supportRotated` hands the number 90 to `cos`
and `sin`, which read it as radians (`cos 90 = -0.448...`, `sin 90 = 0.893...`),
so the working half-length is `int(6 * 1.342... + 1) = 9`, not the 7 of a
rotation by 90 degrees. -/
theorem workingHalfLen_ninety (P : Prims)
    (hc : -449 / 1000 ≤ P.cos 90 ∧ P.cos 90 ≤ -448 / 1000)
    (hs : 893 / 1000 ≤ P.sin 90 ∧ P.sin 90 ≤ 894 / 1000) :
    workingHalfLen P 6 90 = 9 ∧ (9 : ℤ) ≠ 7 := by
  obtain ⟨hc1, hc2⟩ := hc
  obtain ⟨hs1, hs2⟩ := hs
  have hx : supportRotated P ((6 : ℕ) : ℤ) ((6 : ℕ) : ℤ) 90 X_ORI = 9 := by
    unfold supportRotated
    simp only [X_ORI, if_true]
    have e : (((6 : ℕ) : ℤ) : ℚ) = 6 := by norm_num
    rw [e]
    have h0 : |6 * P.cos 90 - 6 * P.sin 90| = 6 * P.sin 90 - 6 * P.cos 90 := by
      rw [abs_of_nonpos (by linarith)]
      ring
    have h1 : |6 * P.cos 90 + 6 * P.sin 90| = 6 * P.cos 90 + 6 * P.sin 90 := by
      rw [abs_of_nonneg (by linarith)]
    rw [h0, h1, if_pos (by linarith)]
    apply cint_of_mem_Ico
    · linarith
    · push_cast; linarith
    · push_cast; linarith
  have hy : supportRotated P ((6 : ℕ) : ℤ) ((6 : ℕ) : ℤ) 90 Y_ORI = 9 := by
    unfold supportRotated
    simp only [Y_ORI, Bool.false_eq_true, if_false]
    have e : (((6 : ℕ) : ℤ) : ℚ) = 6 := by norm_num
    rw [e]
    have h0 : |6 * P.cos 90 - 6 * P.sin 90| = 6 * P.sin 90 - 6 * P.cos 90 := by
      rw [abs_of_nonpos (by linarith)]
      ring
    have h1 : |6 * P.cos 90 + 6 * P.sin 90| = 6 * P.cos 90 + 6 * P.sin 90 := by
      rw [abs_of_nonneg (by linarith)]
    rw [h0, h1, if_pos (by linarith)]
    apply cint_of_mem_Ico
    · linarith
    · push_cast; linarith
    · push_cast; linarith
  refine ⟨?_, by decide⟩
  unfold workingHalfLen
  dsimp only
  rw [hx, hy]
  rfl

/-- C19 with `cos 90 = -0.448` and `sin 90 = 0.894`. -/
theorem workingHalfLen_ninety_witness : workingHalfLen radianPrims 6 90 = 9 ∧ (9 : ℤ) ≠ 7 :=
  workingHalfLen_ninety radianPrims (by simp [radianPrims]; norm_num)
    (by simp [radianPrims]; norm_num)

/-! ## The texton filter bank -/

theorem getElem?_of_getD (l : List ℚ) (i : ℕ) (hi : i < l.length) : l[i]? = some (l.getD i 0) := by
  rw [List.getD_eq_getElem _ _ hi, List.getElem?_eq_getElem hi]

theorem gaussianFilters_entries (P : Prims) (n : ℕ) (sigma : ℚ) (deriv : ℕ) (hlbrt : Bool)
    (enlongation : ℚ)
    (hsome : ∀ i, i < n → (gaussianFilter2D_sigma P ((i : ℚ) * (180 / (n : ℚ))) sigma
      (sigma / enlongation) deriv hlbrt).isSome = true) :
    ∃ Fs, gaussianFilters P n sigma deriv hlbrt enlongation = some Fs ∧ Fs.length = n ∧
      ∀ i, i < n → Fs[i]? = gaussianFilter2D_sigma P ((i : ℚ) * (180 / (n : ℚ))) sigma
        (sigma / enlongation) deriv hlbrt := by
  have hf : ∀ ori ∈ standard_filter_orientations n DEG,
      gaussianFilter2D_sigma P ori sigma (sigma / enlongation) deriv hlbrt =
        some ((gaussianFilter2D_sigma P ori sigma (sigma / enlongation) deriv hlbrt).getD
          ⟨0, 0, []⟩) := by
    intro ori hori
    rw [standard_filter_orientations_deg] at hori
    obtain ⟨i, hi, rfl⟩ := mem_oriLoop hori
    have h := hsome i hi
    rw [if_pos (by omega), zero_add]
    rcases hq : gaussianFilter2D_sigma P ((i : ℚ) * (180 / (n : ℚ))) sigma
      (sigma / enlongation) deriv hlbrt with _ | m
    · rw [hq] at h
      cases h
    · rfl
  refine ⟨(standard_filter_orientations n DEG).map fun ori =>
    (gaussianFilter2D_sigma P ori sigma (sigma / enlongation) deriv hlbrt).getD ⟨0, 0, []⟩,
    ?_, ?_, ?_⟩
  · unfold gaussianFilters
    exact collect_map_some _ _ _ hf
  · rw [List.length_map, standard_filter_orientations_deg, oriLoop_length]
  · intro i hi
    have hlen : i < (standard_filter_orientations n DEG).length := by
      rw [standard_filter_orientations_deg, oriLoop_length]
      exact hi
    have hget : (standard_filter_orientations n DEG)[i]? = some ((i : ℚ) * (180 / (n : ℚ))) := by
      rw [getElem?_of_getD _ i hlen, standard_filter_orientations_deg,
        oriLoop_getD _ _ _ _ hi, if_pos (by omega), zero_add]
    rw [List.getElem?_map, hget]
    simp only [Option.map_some']
    rw [← hf _ (List.getElem?_mem hget)]

/-- C13. For every orientation count `n` and every `sigma` for which each
constituent filter is produced, `textonFilters` returns exactly `2n + 1` filters
in this order: entry `i < n` is the `i`-th even filter (order 2, Hilbert off,
`sigma_y = sigma / 3`, orientation `i * 180 / n`), entry `n + i` the `i`-th odd
filter (the same with Hilbert on), and entry `2n` the centre-surround filter
with `sigma_x = sigma_y = sigma` and scale factor `M_SQRT2`. -/
theorem textonFilters_order (P : Prims) (n : ℕ) (sigma : ℚ)
    (heven : ∀ i, i < n → (gaussianFilter2D_sigma P ((i : ℚ) * (180 / (n : ℚ))) sigma
      (sigma / 3) 2 HILBRT_OFF).isSome = true)
    (hodd : ∀ i, i < n → (gaussianFilter2D_sigma P ((i : ℚ) * (180 / (n : ℚ))) sigma
      (sigma / 3) 2 HILBRT_ON).isSome = true)
    (hcs : (gaussianFilter2D_cs_sigma P sigma sigma M_SQRT2).isSome = true) :
    ∃ F, textonFilters P n sigma = some F ∧ F.length = 2 * n + 1 ∧
      (∀ i, i < n → F[i]? = gaussianFilter2D_sigma P ((i : ℚ) * (180 / (n : ℚ))) sigma
        (sigma / 3) 2 HILBRT_OFF) ∧
      (∀ i, i < n → F[n + i]? = gaussianFilter2D_sigma P ((i : ℚ) * (180 / (n : ℚ))) sigma
        (sigma / 3) 2 HILBRT_ON) ∧
      F[2 * n]? = gaussianFilter2D_cs_sigma P sigma sigma M_SQRT2 := by
  obtain ⟨E, hE, hElen, hEget⟩ := gaussianFilters_entries P n sigma 2 HILBRT_OFF 3 heven
  obtain ⟨O, hO, hOlen, hOget⟩ := gaussianFilters_entries P n sigma 2 HILBRT_ON 3 hodd
  rcases hc : gaussianFilter2D_cs_sigma P sigma sigma M_SQRT2 with _ | c
  · rw [hc] at hcs
    cases hcs
  · refine ⟨E ++ O ++ [c], ?_, ?_, ?_, ?_, ?_⟩
    · unfold textonFilters oeFilters
      simp only [OE_EVEN, OE_ODD, if_true, Bool.false_eq_true, if_false]
      rw [hE, hO, hc]
    · simp only [List.length_append, List.length_singleton, hElen, hOlen]
      omega
    · intro i hi
      rw [List.append_assoc, List.getElem?_append_left (by omega), hEget i hi]
    · intro i hi
      rw [List.getElem?_append_left (by simp only [List.length_append]; omega),
        List.getElem?_append_right (by omega), hElen, Nat.add_sub_cancel_left, hOget i hi]
    · rw [List.getElem?_append_right (by simp only [List.length_append]; omega)]
      simp only [List.length_append, hElen, hOlen]
      have : 2 * n - (n + n) = 0 := by omega
      rw [this]
      rfl

/-- C13 with one orientation and `sigma = 1`. -/
theorem textonFilters_order_witness :
    ∃ F, textonFilters samplePrims 1 1 = some F ∧ F.length = 2 * 1 + 1 ∧
      (∀ i : ℕ, i < 1 → F[i]? = gaussianFilter2D_sigma samplePrims ((i : ℚ) * (180 / ((1 : ℕ) : ℚ))) 1
        (1 / 3) 2 HILBRT_OFF) ∧
      (∀ i : ℕ, i < 1 → F[1 + i]? = gaussianFilter2D_sigma samplePrims
        ((i : ℚ) * (180 / ((1 : ℕ) : ℚ))) 1 (1 / 3) 2 HILBRT_ON) ∧
      F[2 * 1]? = gaussianFilter2D_cs_sigma samplePrims 1 1 M_SQRT2 :=
  textonFilters_order samplePrims 1 1
    (by
      intro i hi
      have : i = 0 := by omega
      subst this
      decide!)
    (by
      intro i hi
      have : i = 0 := by omega
      subst this
      decide!)
    (by decide!)

/-! ## `convolveDFT` in full-size mode -/

theorem cconv_getD (N : ℕ) (A B : List ℚ) (k : ℕ) (hk : k < N) :
    (cconv N A B).getD k 0 =
      ((List.range N).map fun i => A.getD i 0 * B.getD ((k + N - i) % N) 0).sum := by
  unfold cconv
  rw [List.getD_eq_getElem _ _ (by simpa using hk)]
  simp

theorem sum_range_ite_le (f : ℕ → ℚ) (k d : ℕ) :
    ((List.range (k + 1 + d)).map fun i => if i ≤ k then f i else 0).sum =
      ((List.range (k + 1)).map f).sum := by
  induction d with
  | zero =>
    congr 1
    apply List.map_congr_left
    intro i hi
    rw [if_pos (by have := List.mem_range.mp hi; omega)]
  | succ d ih =>
    have e : k + 1 + (d + 1) = (k + 1 + d) + 1 := by omega
    rw [e, List.range_succ, List.map_append, List.sum_append, ih]
    simp only [List.map_cons, List.map_nil, List.sum_cons, List.sum_nil]
    rw [if_neg (by omega)]
    ring

theorem cconv_term_no_wrap (A B : List ℚ) (N k i : ℕ) (hb : 1 ≤ B.length)
    (hN : A.length + B.length - 1 ≤ N) (hk : k < N) (hi : i < N) :
    A.getD i 0 * B.getD ((k + N - i) % N) 0 =
      if i ≤ k then A.getD i 0 * B.getD (k - i) 0 else 0 := by
  by_cases hik : i ≤ k
  · rw [if_pos hik]
    have e : k + N - i = (k - i) + N := by omega
    rw [e, Nat.add_mod_right, Nat.mod_eq_of_lt (by omega)]
  · rw [if_neg hik, Nat.mod_eq_of_lt (by omega)]
    by_cases hia : i < A.length
    · rw [List.getD_eq_default B 0 (by omega), mul_zero]
    · rw [List.getD_eq_default A 0 (by omega), zero_mul]

theorem cconv_entry_linear (A B : List ℚ) (N k : ℕ) (hb : 1 ≤ B.length)
    (hN : A.length + B.length - 1 ≤ N) (hk : k < N) :
    (cconv N A B).getD k 0 =
      ((List.range (k + 1)).map fun i => A.getD i 0 * B.getD (k - i) 0).sum := by
  rw [cconv_getD N A B k hk]
  have h1 : ((List.range N).map fun i => A.getD i 0 * B.getD ((k + N - i) % N) 0) =
      (List.range N).map fun i => if i ≤ k then A.getD i 0 * B.getD (k - i) 0 else 0 := by
    apply List.map_congr_left
    intro i hi
    exact cconv_term_no_wrap A B N k i hb hN hk (List.mem_range.mp hi)
  obtain ⟨d, hd⟩ : ∃ d, N = k + 1 + d := ⟨N - (k + 1), by omega⟩
  rw [h1, hd, sum_range_ite_le]

/-- C11, counterexamples. For `a = 2`, `b = 12` the full-size result has 14
entries, not `a + b - 1 = 13`: the whole padded row is returned. For `a = 2`,
`b = 7` the padded length is 7, one short of `a + b - 1 = 8`, and the last entry
of the linear convolution `[0, 0, 0, 0, 0, 0, 0, 1]` wraps around to index 0. -/
theorem convolveDFT_expand_not_trimmed :
    (convolveDFT (Mat.ofRow [1, 1]) (Mat.ofRow (List.replicate 12 1)) EXPAND_SIZE).map
        (fun out => out.cols) = some 14 ∧
    (14 : ℕ) ≠ 2 + 12 - 1 ∧
    convolveDFT (Mat.ofRow [0, 1]) (Mat.ofRow [0, 0, 0, 0, 0, 0, 1]) EXPAND_SIZE =
      some ⟨1, 7, [1, 0, 0, 0, 0, 0, 0]⟩ ∧
    linearConv_spec [0, 1] [0, 0, 0, 0, 0, 0, 1] = [0, 0, 0, 0, 0, 0, 0, 1] := by
  decide!

/-- C11, as the source has it. For single-row signals `A` (length `a ≥ 1`) and `B`
(length `b ≥ 1`) whose padded length `N = getOptimalDFTSize(a+b-1) - 1` is at
least `a + b - 1`, `convolveDFT` in full-size mode returns the whole padded
row, of length `N`: entry `k < a + b - 1` is the linear convolution sum over
`i` of `A[i] * B[k - i]`, and the entries from `a + b - 1` on are 0. -/
theorem convolveDFT_expand_padded (A B : List ℚ) (ha : 1 ≤ A.length) (hb : 1 ≤ B.length)
    (hN : A.length + B.length - 1 ≤ expandLen A.length B.length) :
    ∃ out, convolveDFT (Mat.ofRow A) (Mat.ofRow B) EXPAND_SIZE = some out ∧
      out.rows = 1 ∧ out.cols = expandLen A.length B.length ∧
      out.data.length = expandLen A.length B.length ∧
      (∀ k, k < A.length + B.length - 1 → out.get 0 k =
        ((List.range (k + 1)).map fun i => A.getD i 0 * B.getD (k - i) 0).sum) ∧
      (∀ k, A.length + B.length - 1 ≤ k → k < expandLen A.length B.length →
        out.get 0 k = 0) := by
  have hget : ∀ k, k < expandLen A.length B.length →
      (⟨1, expandLen A.length B.length,
        cconv (expandLen A.length B.length) A B⟩ : Mat).get 0 k =
      ((List.range (k + 1)).map fun i => A.getD i 0 * B.getD (k - i) 0).sum := by
    intro k hk
    unfold Mat.get
    dsimp only
    rw [Nat.zero_mul, Nat.zero_add]
    exact cconv_entry_linear A B _ k hb hN hk
  refine ⟨⟨1, expandLen A.length B.length, cconv (expandLen A.length B.length) A B⟩,
    ?_, rfl, rfl, cconv_length _ _ _, ?_, ?_⟩
  · unfold convolveDFT
    simp only [Mat.ofRow, EXPAND_SIZE, SAME_SIZE]
    have hw : (expandLen A.length B.length : ℤ) =
        getOptimalDFTSize ((A.length : ℤ) + (B.length : ℤ) - 1) - 1 := by
      unfold expandLen
      apply Int.toNat_of_nonneg
      by_contra hneg
      have : expandLen A.length B.length = 0 := by
        unfold expandLen
        exact Int.toNat_eq_zero.mpr (by omega)
      omega
    rw [if_neg (by omega), if_neg (by simp)]
    cases h : (false : Bool)
    · simp [expandLen]
    · cases h
  · intro k hk
    exact hget k (by omega)
  · intro k hk1 hk2
    rw [hget k hk2]
    apply List.sum_eq_zero
    intro x hx
    rcases List.mem_map.mp hx with ⟨i, hi, rfl⟩
    have hi' := List.mem_range.mp hi
    by_cases hia : i < A.length
    · rw [List.getD_eq_default B 0 (by omega), mul_zero]
    · rw [List.getD_eq_default A 0 (by omega), zero_mul]

/-- C11 at `a = 2`, `b = 12`, where the padded length is 14. -/
theorem convolveDFT_expand_padded_witness :
    ∃ out, convolveDFT (Mat.ofRow [1, 1]) (Mat.ofRow (List.replicate 12 1)) EXPAND_SIZE =
        some out ∧
      out.rows = 1 ∧ out.cols = expandLen [(1 : ℚ), 1].length (List.replicate 12 (1 : ℚ)).length ∧
      out.data.length = expandLen [(1 : ℚ), 1].length (List.replicate 12 (1 : ℚ)).length ∧
      (∀ k, k < [(1 : ℚ), 1].length + (List.replicate 12 (1 : ℚ)).length - 1 → out.get 0 k =
        ((List.range (k + 1)).map fun i =>
          [(1 : ℚ), 1].getD i 0 * (List.replicate 12 (1 : ℚ)).getD (k - i) 0).sum) ∧
      (∀ k, [(1 : ℚ), 1].length + (List.replicate 12 (1 : ℚ)).length - 1 ≤ k →
        k < expandLen [(1 : ℚ), 1].length (List.replicate 12 (1 : ℚ)).length →
        out.get 0 k = 0) :=
  convolveDFT_expand_padded [1, 1] (List.replicate 12 1) (by decide) (by decide) (by decide)

/-! ## When the same-size slice is centred -/

theorem linearConv_spec_getD (A B : List ℚ) (k : ℕ) (hk : k < A.length + B.length - 1) :
    (linearConv_spec A B).getD k 0 =
      ((List.range (k + 1)).map fun i => A.getD i 0 * B.getD (k - i) 0).sum := by
  unfold linearConv_spec
  rw [List.getD_eq_getElem _ _ (by simpa using hk)]
  simp

theorem getD_take_drop (l : List ℚ) (W a j : ℕ) (hj : j < a) :
    ((l.drop W).take a).getD j 0 = l.getD (W + j) 0 := by
  simp only [List.getD_eq_getElem?_getD, List.getElem?_take, List.getElem?_drop, hj, if_true]

/-- The same-size mode away from the padding slip: for single-row signals `A`
(length `a ≥ 1`) and `B` (length `b ≥ 1`) whose padded length `N` is at least
`a + b - 1` and for which the slice offset `(N - a) / 2` of the source equals
`(b - 1) / 2`, `convolveDFT` returns the length-`a` slice of the linear
convolution centred on the full result. -/
theorem convolveDFT_same_centred (A B : List ℚ) (ha : 1 ≤ A.length) (hb : 1 ≤ B.length)
    (hN : A.length + B.length - 1 ≤ expandLen A.length B.length)
    (hW : (expandLen A.length B.length - A.length) / 2 = (B.length - 1) / 2) :
    convolveDFT (Mat.ofRow A) (Mat.ofRow B) SAME_SIZE =
      some ⟨1, A.length, sameSizeSlice_spec A B⟩ := by
  have hw : (expandLen A.length B.length : ℤ) =
      getOptimalDFTSize ((A.length : ℤ) + (B.length : ℤ) - 1) - 1 := by
    unfold expandLen
    apply Int.toNat_of_nonneg
    by_contra hneg
    have : expandLen A.length B.length = 0 := by
      unfold expandLen
      exact Int.toNat_eq_zero.mpr (by omega)
    omega
  have hslice : ((cconv (expandLen A.length B.length) A B).drop
      ((expandLen A.length B.length - A.length) / 2)).take A.length =
      sameSizeSlice_spec A B := by
    have hdiv : (expandLen A.length B.length - A.length) / 2 ≤
        expandLen A.length B.length - A.length := Nat.div_le_self _ _
    have hdiv2 : (B.length - 1) / 2 ≤ B.length - 1 := Nat.div_le_self _ _
    apply list_ext_getD
    · rw [List.length_take, List.length_drop, cconv_length]
      unfold sameSizeSlice_spec
      rw [List.length_map, List.length_range]
      omega
    · intro j
      by_cases hj : j < A.length
      · rw [getD_take_drop _ _ _ _ hj,
          cconv_entry_linear A B _ _ hb hN (by omega)]
        unfold sameSizeSlice_spec
        rw [List.getD_eq_getElem _ _ (by simpa using hj)]
        simp only [List.getElem_map, List.getElem_range]
        rw [linearConv_spec_getD A B _ (by omega), hW, Nat.add_comm]
      · rw [List.getD_eq_default _ _ (by
            rw [List.length_take, List.length_drop, cconv_length]; omega),
          List.getD_eq_default _ _ (by
            unfold sameSizeSlice_spec
            rw [List.length_map, List.length_range]; omega)]
  unfold convolveDFT
  simp only [Mat.ofRow, SAME_SIZE, if_true]
  rw [if_neg (by omega), if_neg (by simp)]
  have e : (getOptimalDFTSize ((A.length : ℤ) + (B.length : ℤ) - 1) - 1).toNat =
      expandLen A.length B.length := rfl
  simp only [e, hslice]

/-- The same-size mode for 25 ones and the default 7-tap kernel. -/
theorem convolveDFT_same_centred_witness :
    convolveDFT (Mat.ofRow (List.replicate 25 1)) (Mat.ofRow impulse_resp.data) SAME_SIZE =
      some ⟨1, (List.replicate 25 (1 : ℚ)).length,
        sameSizeSlice_spec (List.replicate 25 1) impulse_resp.data⟩ :=
  convolveDFT_same_centred (List.replicate 25 1) impulse_resp.data (by decide) (by decide)
    (by decide) (by decide)

theorem sum_range_single (f : ℕ → ℚ) (j N : ℕ) (hj : j < N) :
    ((List.range N).map fun i => if i = j then f i else 0).sum = f j := by
  induction N with
  | zero => omega
  | succ N ih =>
    rw [List.range_succ, List.map_append, List.sum_append]
    simp only [List.map_cons, List.map_nil, List.sum_cons, List.sum_nil, add_zero]
    by_cases h : j < N
    · rw [ih h, if_neg (by omega), add_zero]
    · have hjN : N = j := by omega
      subst hjN
      rw [if_pos rfl]
      have : ((List.range N).map fun i => if i = N then f i else 0) =
          (List.range N).map fun _ => (0 : ℚ) := by
        apply List.map_congr_left
        intro i hi
        rw [if_neg (by have := List.mem_range.mp hi; omega)]
      rw [this]
      simp

theorem impulse_resp_getD (m : ℕ) : impulse_resp.data.getD m 0 = if m = 3 then 1 else 0 := by
  rw [impulse_resp_data]
  rcases m with _ | _ | _ | _ | _ | _ | _ | m <;> simp

/-- The default kernel where it is a no-op: for a histogram of `n ≥ 1` bins
whose slice offset `(N - n) / 2` for the padded length `N` equals 3, the
same-size `convolveDFT` with the default length-7 impulse kernel returns the
histogram unchanged. This is so for the 25 bins used by `globalPb.cc`. -/
theorem convolveDFT_default_identity (hist : List ℚ) (hn : 1 ≤ hist.length)
    (hW : (padLen hist.length - hist.length) / 2 = 3) :
    convolveDFT (Mat.ofRow hist) impulse_resp SAME_SIZE = some ⟨1, hist.length, hist⟩ := by
  rw [convolveDFT_default hist hn]
  have hsmooth : smoothDefault hist = hist := by
    apply list_ext_getD
    · exact smoothDefault_length hist hn
    · intro j
      by_cases hj : j < hist.length
      · unfold smoothDefault
        rw [getD_take_drop _ _ _ _ hj, hW,
          cconv_entry_linear hist impulse_resp.data _ _ (by rw [impulse_resp_data]; simp)
            (by rw [impulse_resp_data]; simp; omega) (by omega)]
        have : ((List.range (3 + j + 1)).map fun i =>
            hist.getD i 0 * impulse_resp.data.getD (3 + j - i) 0) =
            (List.range (3 + j + 1)).map fun i => if i = j then hist.getD i 0 else 0 := by
          apply List.map_congr_left
          intro i hi
          have hi' := List.mem_range.mp hi
          rw [impulse_resp_getD]
          by_cases hij : i = j
          · rw [if_pos hij, if_pos (by omega), mul_one]
          · rw [if_neg hij, if_neg (by omega), mul_zero]
        rw [this, sum_range_single (fun i => hist.getD i 0) j _ (by omega)]
      · rw [List.getD_eq_default _ _ (by rw [smoothDefault_length hist hn]; omega),
          List.getD_eq_default _ _ (by omega)]
  rw [hsmooth]

/-- The default kernel on 25 bins. -/
theorem convolveDFT_default_identity_witness :
    convolveDFT (Mat.ofRow (List.replicate 25 2)) impulse_resp SAME_SIZE =
      some ⟨1, (List.replicate 25 (2 : ℚ)).length, List.replicate 25 2⟩ :=
  convolveDFT_default_identity (List.replicate 25 2) (by decide) (by decide)

/-! ## The range of the chi-squared reduction -/

theorem chiTerm_le_half_sum (a b : ℚ) (ha : 0 ≤ a) (hb : 0 ≤ b) :
    chiTerm a b ≤ (1 / 2) * a + (1 / 2) * b := by
  unfold chiTerm
  rw [div_le_iff₀ (chiTerm_den_pos a b)]
  split_ifs with h
  · nlinarith [mul_nonneg ha hb, mul_nonneg ha ha, mul_nonneg hb hb]
  · nlinarith [mul_nonneg ha hb]

theorem normBin_nonneg (num_bins : ℕ) (hist : List ℚ) (hh : ∀ x ∈ hist, 0 ≤ x) (nn : ℕ) :
    0 ≤ normBin num_bins hist nn := by
  unfold normBin
  split_ifs with h
  · exact getD_nonneg hist hh nn
  · apply div_nonneg (getD_nonneg hist hh nn)
    apply List.sum_nonneg
    intro x hx
    rcases List.mem_map.mp hx with ⟨k, _, rfl⟩
    exact getD_nonneg hist hh k

theorem normBin_sum_le_one (num_bins : ℕ) (hist : List ℚ) :
    ((List.range num_bins).map fun k => normBin num_bins hist k).sum ≤ 1 := by
  by_cases h : ((List.range num_bins).map fun k => hist.getD k 0).sum = 0
  · have : ((List.range num_bins).map fun k => normBin num_bins hist k) =
        (List.range num_bins).map fun k => hist.getD k 0 := by
      apply List.map_congr_left
      intro k _
      unfold normBin
      rw [if_pos h]
    rw [this, h]
    norm_num
  · have : ((List.range num_bins).map fun k => normBin num_bins hist k) =
        (List.range num_bins).map fun k =>
          (1 / ((List.range num_bins).map fun k => hist.getD k 0).sum) * hist.getD k 0 := by
      apply List.map_congr_left
      intro k _
      unfold normBin
      rw [if_neg h]
      ring
    rw [this, List.sum_map_mul_left, one_div_mul_cancel h]

theorem sum_map_le_sum_map (l : List ℕ) (f g : ℕ → ℚ) (h : ∀ k ∈ l, f k ≤ g k) :
    (l.map f).sum ≤ (l.map g).sum := by
  induction l with
  | nil => simp
  | cons a t ih =>
    simp only [List.map_cons, List.sum_cons]
    have h1 := h a (List.mem_cons_self a t)
    have h2 := ih fun k hk => h k (List.mem_cons_of_mem a hk)
    linarith

theorem sum_map_add (l : List ℕ) (f g : ℕ → ℚ) :
    (l.map fun k => f k + g k).sum = (l.map f).sum + (l.map g).sum := by
  induction l with
  | nil => simp
  | cons a t ih =>
    simp only [List.map_cons, List.sum_cons, ih]
    ring

theorem chiSquared_nonneg (num_bins : ℕ) (L R : List ℚ) : 0 ≤ chiSquared num_bins L R := by
  rw [chiSquared_eq]
  apply List.sum_nonneg
  intro x hx
  rcases List.mem_map.mp hx with ⟨nn, _, rfl⟩
  exact chiTerm_nonneg _ _

theorem chiSquared_le_one (num_bins : ℕ) (L R : List ℚ) (hL : ∀ x ∈ L, 0 ≤ x)
    (hR : ∀ x ∈ R, 0 ≤ x) : chiSquared num_bins L R ≤ 1 := by
  rw [chiSquared_eq]
  have h1 := sum_map_le_sum_map (List.range num_bins)
    (fun nn => chiTerm (normBin num_bins L nn) (normBin num_bins R nn))
    (fun nn => (1 / 2) * normBin num_bins L nn + (1 / 2) * normBin num_bins R nn)
    (fun nn _ => chiTerm_le_half_sum _ _ (normBin_nonneg num_bins L hL nn)
      (normBin_nonneg num_bins R hR nn))
  rw [sum_map_add, List.sum_map_mul_left, List.sum_map_mul_left] at h1
  have h2 := normBin_sum_le_one num_bins L
  have h3 := normBin_sum_le_one num_bins R
  linarith

/-- The chi-squared score computed by the reduction of `gradient_hist_2D` lies
in `[0, 1]` for every pair of smoothed histograms whose entries are
non-negative (of any lengths, in particular of equal length `num_bins`). -/
theorem chiSquared_range (num_bins : ℕ) (L R : List ℚ) (hL : ∀ x ∈ L, 0 ≤ x)
    (hR : ∀ x ∈ R, 0 ≤ x) :
    0 ≤ chiSquared num_bins L R ∧ chiSquared num_bins L R ≤ 1 :=
  ⟨chiSquared_nonneg num_bins L R, chiSquared_le_one num_bins L R hL hR⟩

/-- The range of the score for the left histogram `[3, 1, 0]` and the right
histogram `[0, 2, 2]`. -/
theorem chiSquared_range_witness :
    0 ≤ chiSquared 3 [3, 1, 0] [0, 2, 2] ∧ chiSquared 3 [3, 1, 0] [0, 2, 2] ≤ 1 :=
  chiSquared_range 3 [3, 1, 0] [0, 2, 2]
    (by
      intro x hx
      simp only [List.mem_cons, List.mem_singleton, List.not_mem_nil, or_false] at hx
      rcases hx with rfl | rfl | rfl <;> norm_num)
    (by
      intro x hx
      simp only [List.mem_cons, List.mem_singleton, List.not_mem_nil, or_false] at hx
      rcases hx with rfl | rfl | rfl <;> norm_num)

/-- The reduction of `gradient_hist_2D` has no guard against entries of both
signs: the right histogram `[1e-8, -5e-9]`, two values of the size of a
rounding residue around 0, has the non-zero sum `5e-9`, is divided by it to
`[2, -1]`, and against the left histogram `[0, 1]` the score is 3. -/
theorem chiSquared_signed_residue :
    normBin 2 [1 / 100000000, -(1 / 200000000)] 0 = 2 ∧
    normBin 2 [1 / 100000000, -(1 / 200000000)] 1 = -1 ∧
    chiSquared 2 [0, 1] [1 / 100000000, -(1 / 200000000)] = 3 := by
  decide!

/-! ## The rotated support and the crop of `gaussianFilter2D` -/

theorem abs_add_abs_le_mag (a b : ℚ) :
    |a| + |b| ≤ (if |a - b| > |a + b| then |a - b| else |a + b|) := by
  have ha := le_abs_self (a - b)
  have hb := neg_abs_le (a - b)
  have hc := le_abs_self (a + b)
  have hd := neg_abs_le (a + b)
  split_ifs with h <;> rcases abs_cases a with ⟨h1, _⟩ | ⟨h1, _⟩ <;>
    rcases abs_cases b with ⟨h2, _⟩ | ⟨h2, _⟩ <;> rw [h1, h2] <;> linarith

theorem supportRotated_square (P : Prims) (h : ℕ) (ori : ℚ) (label : Bool) :
    supportRotated P h h ori label =
      cint ((if |(h : ℚ) * P.cos ori - (h : ℚ) * P.sin ori| >
            |(h : ℚ) * P.cos ori + (h : ℚ) * P.sin ori|
          then |(h : ℚ) * P.cos ori - (h : ℚ) * P.sin ori|
          else |(h : ℚ) * P.cos ori + (h : ℚ) * P.sin ori|) + 1) := by
  unfold supportRotated
  simp

theorem supportRotated_square_ge (P : Prims) (h : ℕ) (ori : ℚ) (label : Bool)
    (hcs : 1 ≤ |P.cos ori| + |P.sin ori|) :
    (h : ℤ) + 1 ≤ supportRotated P h h ori label := by
  rw [supportRotated_square]
  have h1 := abs_add_abs_le_mag ((h : ℚ) * P.cos ori) ((h : ℚ) * P.sin ori)
  have h2 : (h : ℚ) ≤ |(h : ℚ) * P.cos ori| + |(h : ℚ) * P.sin ori| := by
    rw [abs_mul, abs_mul, abs_of_nonneg (Nat.cast_nonneg h)]
    have : (0 : ℚ) ≤ h := Nat.cast_nonneg h
    nlinarith
  have h0 : (0 : ℚ) ≤ h := Nat.cast_nonneg h
  unfold cint
  rw [if_pos (by linarith)]
  apply Int.le_floor.mpr
  push_cast
  linarith

theorem normalizeDistr_shape (m M : Mat) (label : Bool) (h : normalizeDistr m label = some M) :
    M.rows = m.rows ∧ M.cols = m.cols ∧ M.data.length = m.data.length := by
  unfold normalizeDistr at h
  dsimp only at h
  split_ifs at h
  all_goals
    simp only [Option.some.injEq] at h
    subst h
    simp

theorem convolveDFT_same_shape (A B M : Mat) (h : convolveDFT A B SAME_SIZE = some M) :
    M.rows = A.rows ∧ M.cols = A.cols := by
  unfold convolveDFT at h
  simp only [SAME_SIZE, if_true] at h
  split_ifs at h
  simp only [Option.some.injEq] at h
  subst h
  exact ⟨rfl, rfl⟩

theorem hilbertTransform1D_column_shape (input M : Mat) (hc : input.cols = 1)
    (h : hilbertTransform1D input SAME_SIZE = some M) :
    M.rows = input.rows ∧ M.cols = 1 := by
  unfold hilbertTransform1D at h
  dsimp only at h
  rw [if_pos hc] at h
  cases hconv : convolveDFT input.transpose
      (hilbertKernel (if input.rows > input.cols then input.rows else input.cols))
      SAME_SIZE with
  | none => simp [hconv] at h
  | some T =>
    simp only [hconv, Option.some.injEq, if_pos hc] at h
    subst h
    obtain ⟨hr1, hc1⟩ := convolveDFT_same_shape _ _ _ hconv
    have e1 : input.transpose.rows = input.cols := rfl
    have e2 : input.transpose.cols = input.rows := rfl
    have e3 : T.transpose.rows = T.cols := rfl
    have e4 : T.transpose.cols = T.rows := rfl
    rw [e3, e4, hc1, hr1, e1, e2, hc]
    exact ⟨rfl, rfl⟩

theorem gaussianFilter1D_tail_shape (output M : Mat) (deriv : ℕ) (hlbrt : Bool)
    (hc : output.cols = 1)
    (h : (match (if hlbrt then hilbertTransform1D output SAME_SIZE else some output) with
      | none => none
      | some output =>
        if deriv > 0 then normalizeDistr output ZERO else normalizeDistr output NON_ZERO) =
      some M) :
    M.rows = output.rows ∧ M.cols = 1 := by
  cases hlbrt with
  | true =>
    simp only [if_true] at h
    cases ht : hilbertTransform1D output SAME_SIZE with
    | none => simp [ht] at h
    | some T =>
      rw [ht] at h
      dsimp only at h
      obtain ⟨hr1, hc1⟩ := hilbertTransform1D_column_shape output T hc ht
      split_ifs at h
      all_goals
        obtain ⟨hr2, hc2, _⟩ := normalizeDistr_shape _ _ _ h
        exact ⟨by rw [hr2, hr1], by rw [hc2, hc1]⟩
  | false =>
    simp only [Bool.false_eq_true, if_false] at h
    split_ifs at h
    all_goals
      obtain ⟨hr2, hc2, _⟩ := normalizeDistr_shape _ _ _ h
      exact ⟨hr2, by rw [hc2, hc]⟩

theorem gaussianFilter1D_shape (P : Prims) (half_len : ℕ) (sigma : ℚ) (deriv : ℕ)
    (label : Bool) (M : Mat) (h : gaussianFilter1D P half_len sigma deriv label = some M) :
    M.rows = 2 * half_len + 1 ∧ M.cols = 1 := by
  unfold gaussianFilter1D at h
  dsimp only at h
  have hl : (if label = true then HILBRT_ON else HILBRT_OFF) = label := by
    cases label <;> rfl
  rw [hl] at h
  exact gaussianFilter1D_tail_shape _ M deriv label (by split_ifs <;> rfl) h |>.imp
    (fun hr => by rw [hr]; split_ifs <;> rfl) id

theorem rotate_2D_crop_square (P : Prims)
    (hW : ∀ (m : Mat) (cx cy : ℤ) (a : ℚ),
      (P.warpAffine m cx cy a).rows = m.rows ∧ (P.warpAffine m cx cy a).cols = m.cols)
    (input : Mat) (ori : ℚ) (w h : ℕ) (hwh : h ≤ w)
    (hr : input.rows = 2 * w + 1) (hc : input.cols = 2 * w + 1) :
    rotate_2D_crop P input ori (2 * (h : ℤ) + 1) (2 * (h : ℤ) + 1) DEG =
      some (Mat.tabulate (2 * h + 1) (2 * h + 1) fun i j =>
        (P.warpAffine input w w ori).get (w - h + i) (w - h + j)) := by
  have e1 : ((input.cols : ℤ) - 1).tdiv 2 = w := by
    rw [hc, Int.tdiv_eq_ediv (by omega) (by omega)]
    omega
  have e2 : ((input.rows : ℤ) - 1).tdiv 2 = w := by
    rw [hr, Int.tdiv_eq_ediv (by omega) (by omega)]
    omega
  have e3 : ((input.cols : ℤ) - (2 * (h : ℤ) + 1)).tdiv 2 = ((w - h : ℕ) : ℤ) := by
    rw [hc, Int.tdiv_eq_ediv (by omega) (by omega)]
    omega
  have e4 : ((input.rows : ℤ) - (2 * (h : ℤ) + 1)).tdiv 2 = ((w - h : ℕ) : ℤ) := by
    rw [hr, Int.tdiv_eq_ediv (by omega) (by omega)]
    omega
  have e5 : (2 * (h : ℤ) + 1).toNat = 2 * h + 1 := by omega
  unfold rotate_2D_crop
  simp only [DEG, Bool.false_eq_true, if_false, e1, e2, e3, e4, e5, Int.toNat_ofNat]
  rw [if_pos]
  rw [(hW input w w ori).1, (hW input w w ori).2, hr, hc]
  omega

/-- C22. For every half-length `h ≥ 0` and every angle `ori` at which the
library's `cos` and `sin` satisfy `|cos ori| + |sin ori| ≥ 1` (a consequence of
`cos² + sin² = 1`), the two calls of `supportRotated` in `gaussianFilter2D`
return the same number `w ≥ h + 1`, which is the working half-length; the
working kernel of side `2w + 1` is larger than the requested extent `2h + 1`;
for a kernel of that side both crop borders of `rotate_2D_crop` are `w - h ≥ 0`,
the crop rectangle lies inside the rotated kernel and the crop is produced; so
`gaussianFilter2D` is the final normalisation applied to that crop whenever the
two one-dimensional filters are produced, and every filter it returns is
`(2h + 1) × (2h + 1)`. The warp is taken to return an image of the extent of
its input, as `cv::warpAffine` does for `dsize = input.size()`. -/
theorem gaussianFilter2D_support (P : Prims) (h : ℕ) (ori : ℚ)
    (hcs : 1 ≤ |P.cos ori| + |P.sin ori|)
    (hW : ∀ (m : Mat) (cx cy : ℤ) (a : ℚ),
      (P.warpAffine m cx cy a).rows = m.rows ∧ (P.warpAffine m cx cy a).cols = m.cols) :
    ∃ w : ℕ, supportRotated P h h ori X_ORI = (w : ℤ) ∧
      supportRotated P h h ori Y_ORI = (w : ℤ) ∧
      workingHalfLen P h ori = (w : ℤ) ∧ h + 1 ≤ w ∧ 2 * h + 1 < 2 * w + 1 ∧
      (∀ input : Mat, input.rows = 2 * w + 1 → input.cols = 2 * w + 1 →
        ((input.rows : ℤ) - (2 * (h : ℤ) + 1)).tdiv 2 = ((w - h : ℕ) : ℤ) ∧
        ((input.cols : ℤ) - (2 * (h : ℤ) + 1)).tdiv 2 = ((w - h : ℕ) : ℤ) ∧
        (w - h) + (2 * h + 1) ≤ (P.warpAffine input w w ori).rows ∧
        (w - h) + (2 * h + 1) ≤ (P.warpAffine input w w ori).cols ∧
        rotate_2D_crop P input ori (2 * (h : ℤ) + 1) (2 * (h : ℤ) + 1) DEG =
          some (Mat.tabulate (2 * h + 1) (2 * h + 1) fun i j =>
            (P.warpAffine input w w ori).get (w - h + i) (w - h + j))) ∧
      (∀ (sigma_x sigma_y : ℚ) (deriv : ℕ) (hlbrt : Bool) (output_x output_y : Mat),
        gaussianFilter1D P w sigma_x 0 HILBRT_OFF = some output_x →
        gaussianFilter1D P w sigma_y deriv hlbrt = some output_y →
        (outerProduct output_x output_y).rows = 2 * w + 1 ∧
        (outerProduct output_x output_y).cols = 2 * w + 1 ∧
        gaussianFilter2D P h ori sigma_x sigma_y deriv hlbrt =
          if deriv > 0 then
            normalizeDistr (Mat.tabulate (2 * h + 1) (2 * h + 1) fun i j =>
              (P.warpAffine (outerProduct output_x output_y) w w ori).get
                (w - h + i) (w - h + j)) ZERO
          else
            normalizeDistr (Mat.tabulate (2 * h + 1) (2 * h + 1) fun i j =>
              (P.warpAffine (outerProduct output_x output_y) w w ori).get
                (w - h + i) (w - h + j)) NON_ZERO) ∧
      (∀ (sigma_x sigma_y : ℚ) (deriv : ℕ) (hlbrt : Bool) (M : Mat),
        gaussianFilter2D P h ori sigma_x sigma_y deriv hlbrt = some M →
        M.rows = 2 * h + 1 ∧ M.cols = 2 * h + 1 ∧
          M.data.length = (2 * h + 1) * (2 * h + 1)) := by
  have hge := supportRotated_square_ge P h ori X_ORI hcs
  have hxy : supportRotated P h h ori Y_ORI = supportRotated P h h ori X_ORI := by
    rw [supportRotated_square, supportRotated_square]
  have hwk : workingHalfLen P h ori = supportRotated P h h ori X_ORI := by
    unfold workingHalfLen
    dsimp only
    rw [hxy, if_neg (lt_irrefl _)]
  obtain ⟨w, hw⟩ := Int.eq_ofNat_of_zero_le (a := supportRotated P h h ori X_ORI) (by omega)
  have hhw : h + 1 ≤ w := by omega
  have hwn : (workingHalfLen P h ori).toNat = w := by
    rw [hwk, hw]
    exact Int.toNat_ofNat w
  have hcrop : ∀ input : Mat, input.rows = 2 * w + 1 → input.cols = 2 * w + 1 →
      rotate_2D_crop P input ori (2 * (h : ℤ) + 1) (2 * (h : ℤ) + 1) DEG =
        some (Mat.tabulate (2 * h + 1) (2 * h + 1) fun i j =>
          (P.warpAffine input w w ori).get (w - h + i) (w - h + j)) :=
    fun input hr hc => rotate_2D_crop_square P hW input ori w h (by omega) hr hc
  have hmain : ∀ (sigma_x sigma_y : ℚ) (deriv : ℕ) (hlbrt : Bool) (output_x output_y : Mat),
      gaussianFilter1D P w sigma_x 0 HILBRT_OFF = some output_x →
      gaussianFilter1D P w sigma_y deriv hlbrt = some output_y →
      (outerProduct output_x output_y).rows = 2 * w + 1 ∧
      (outerProduct output_x output_y).cols = 2 * w + 1 ∧
      gaussianFilter2D P h ori sigma_x sigma_y deriv hlbrt =
        if deriv > 0 then
          normalizeDistr (Mat.tabulate (2 * h + 1) (2 * h + 1) fun i j =>
            (P.warpAffine (outerProduct output_x output_y) w w ori).get
              (w - h + i) (w - h + j)) ZERO
        else
          normalizeDistr (Mat.tabulate (2 * h + 1) (2 * h + 1) fun i j =>
            (P.warpAffine (outerProduct output_x output_y) w w ori).get
              (w - h + i) (w - h + j)) NON_ZERO := by
    intro sigma_x sigma_y deriv hlbrt output_x output_y hx hy
    have hr : (outerProduct output_x output_y).rows = 2 * w + 1 :=
      (gaussianFilter1D_shape P w sigma_x 0 HILBRT_OFF output_x hx).1
    have hc : (outerProduct output_x output_y).cols = 2 * w + 1 :=
      (gaussianFilter1D_shape P w sigma_y deriv hlbrt output_y hy).1
    refine ⟨hr, hc, ?_⟩
    rw [gaussianFilter2D_working, if_neg (by omega), hwn, hx, hy]
    dsimp only
    have := hcrop (outerProduct output_x output_y) hr hc
    unfold outerProduct at this
    rw [this]
    rfl
  refine ⟨w, hw, by rw [hxy, hw], by rw [hwk, hw], hhw, by omega, ?_, hmain, ?_⟩
  · intro input hr hc
    refine ⟨?_, ?_, ?_, ?_, hcrop input hr hc⟩
    · rw [hr, Int.tdiv_eq_ediv (by omega) (by omega)]
      omega
    · rw [hc, Int.tdiv_eq_ediv (by omega) (by omega)]
      omega
    · rw [(hW input w w ori).1, hr]
      omega
    · rw [(hW input w w ori).2, hc]
      omega
  · intro sigma_x sigma_y deriv hlbrt M hM
    cases hx : gaussianFilter1D P w sigma_x 0 HILBRT_OFF with
    | none =>
      rw [gaussianFilter2D_working, if_neg (by omega), hwn, hx] at hM
      simp at hM
    | some output_x =>
      cases hy : gaussianFilter1D P w sigma_y deriv hlbrt with
      | none =>
        rw [gaussianFilter2D_working, if_neg (by omega), hwn, hx, hy] at hM
        simp at hM
      | some output_y =>
        obtain ⟨_, _, heq⟩ := hmain sigma_x sigma_y deriv hlbrt output_x output_y hx hy
        rw [heq] at hM
        split_ifs at hM
        all_goals
          obtain ⟨h1, h2, h3⟩ := normalizeDistr_shape _ _ _ hM
          refine ⟨h1, h2, ?_⟩
          rw [h3]
          exact Mat.tabulate_data_length _ _ _

/-- C22 at half-length 6 and `ori = 90`, the argument that `gaussianFilters`
passes for the second of two orientations, with `cos 90 = -0.448` and
`sin 90 = 0.894`: the working half-length is at least 7, and the odd filter of
the texton bank for `sigma = 2` is produced. -/
theorem gaussianFilter2D_support_witness :
    1 ≤ |radianPrims.cos 90| + |radianPrims.sin 90| ∧
    (gaussianFilter2D radianPrims 6 90 2 (2 / 3) 2 HILBRT_ON).isSome = true ∧
    ∃ w : ℕ, supportRotated radianPrims ((6 : ℕ) : ℤ) ((6 : ℕ) : ℤ) 90 X_ORI = (w : ℤ) ∧
      supportRotated radianPrims ((6 : ℕ) : ℤ) ((6 : ℕ) : ℤ) 90 Y_ORI = (w : ℤ) ∧
      workingHalfLen radianPrims 6 90 = (w : ℤ) ∧ 6 + 1 ≤ w ∧ 2 * 6 + 1 < 2 * w + 1 ∧
      (∀ input : Mat, input.rows = 2 * w + 1 → input.cols = 2 * w + 1 →
        ((input.rows : ℤ) - (2 * ((6 : ℕ) : ℤ) + 1)).tdiv 2 = ((w - 6 : ℕ) : ℤ) ∧
        ((input.cols : ℤ) - (2 * ((6 : ℕ) : ℤ) + 1)).tdiv 2 = ((w - 6 : ℕ) : ℤ) ∧
        (w - 6) + (2 * 6 + 1) ≤ (radianPrims.warpAffine input w w 90).rows ∧
        (w - 6) + (2 * 6 + 1) ≤ (radianPrims.warpAffine input w w 90).cols ∧
        rotate_2D_crop radianPrims input 90 (2 * ((6 : ℕ) : ℤ) + 1) (2 * ((6 : ℕ) : ℤ) + 1) DEG =
          some (Mat.tabulate (2 * 6 + 1) (2 * 6 + 1) fun i j =>
            (radianPrims.warpAffine input w w 90).get (w - 6 + i) (w - 6 + j))) ∧
      (∀ (sigma_x sigma_y : ℚ) (deriv : ℕ) (hlbrt : Bool) (output_x output_y : Mat),
        gaussianFilter1D radianPrims w sigma_x 0 HILBRT_OFF = some output_x →
        gaussianFilter1D radianPrims w sigma_y deriv hlbrt = some output_y →
        (outerProduct output_x output_y).rows = 2 * w + 1 ∧
        (outerProduct output_x output_y).cols = 2 * w + 1 ∧
        gaussianFilter2D radianPrims 6 90 sigma_x sigma_y deriv hlbrt =
          if deriv > 0 then
            normalizeDistr (Mat.tabulate (2 * 6 + 1) (2 * 6 + 1) fun i j =>
              (radianPrims.warpAffine (outerProduct output_x output_y) w w 90).get
                (w - 6 + i) (w - 6 + j)) ZERO
          else
            normalizeDistr (Mat.tabulate (2 * 6 + 1) (2 * 6 + 1) fun i j =>
              (radianPrims.warpAffine (outerProduct output_x output_y) w w 90).get
                (w - 6 + i) (w - 6 + j)) NON_ZERO) ∧
      (∀ (sigma_x sigma_y : ℚ) (deriv : ℕ) (hlbrt : Bool) (M : Mat),
        gaussianFilter2D radianPrims 6 90 sigma_x sigma_y deriv hlbrt = some M →
        M.rows = 2 * 6 + 1 ∧ M.cols = 2 * 6 + 1 ∧
          M.data.length = (2 * 6 + 1) * (2 * 6 + 1)) :=
  ⟨by decide!, by decide!,
    gaussianFilter2D_support radianPrims 6 90 (by decide!) (fun _ _ _ _ => ⟨rfl, rfl⟩)⟩

/-! ## The two halves of the disc -/

theorem weights_centre (r : ℕ) : (weight_matrix_disc r).get r r = 0 := by
  rw [weights_get r r r (by omega) (by omega), if_pos ⟨rfl, rfl⟩]

theorem histAdd_sum (hist : List ℚ) (bin : ℤ) (w : ℚ) (h0 : 0 ≤ bin)
    (h1 : bin < hist.length) :
    ∃ h, histAdd hist bin w = some h ∧ h.length = hist.length ∧ h.sum = hist.sum + w := by
  obtain ⟨h, hadd, hlen, hget⟩ := histAdd_spec hist bin w h0 h1
  refine ⟨h, hadd, hlen, ?_⟩
  rw [← sum_map_range_getD h, ← sum_map_range_getD hist, hlen]
  have e1 : ((List.range hist.length).map fun nn => h.getD nn 0) =
      (List.range hist.length).map fun nn =>
        hist.getD nn 0 + (if nn = bin.toNat then w else 0) := by
    apply List.map_congr_left
    intro k _
    rw [hget k]
    congr 1
    by_cases hk : bin = (k : ℤ)
    · rw [if_pos hk, if_pos (by omega)]
    · rw [if_neg hk, if_neg (by omega)]
  rw [e1, sum_map_add, sum_range_single (fun _ => w) bin.toNat hist.length (by omega)]

theorem histLoop_fl64_sums (label_exp weights slice_map : Mat) (r : ℕ) (ori : ℚ) (i j n : ℕ)
    (os : List (ℕ × ℕ)) (st : List ℚ × List ℚ)
    (hl : st.1.length = n) (hr : st.2.length = n)
    (hbin : ∀ o ∈ os, 0 ≤ binAt label_exp r i j o ∧ binAt label_exp r i j o < (n : ℤ)) :
    ∃ L R, histLoop_fl64 label_exp weights slice_map r ori i j os st = some (L, R) ∧
      L.length = n ∧ R.length = n ∧
      L.sum = st.1.sum + (os.map fun o =>
        if inRightHalf_fl64 slice_map ori o.1 o.2 = false then weights.get o.1 o.2 else 0).sum ∧
      R.sum = st.2.sum + (os.map fun o =>
        if inRightHalf_fl64 slice_map ori o.1 o.2 = true then weights.get o.1 o.2 else 0).sum := by
  induction os generalizing st with
  | nil =>
    exact ⟨st.1, st.2, rfl, hl, hr, by simp, by simp⟩
  | cons o os ih =>
    obtain ⟨hb0, hb1⟩ := hbin o (List.mem_cons_self o os)
    have hrest : ∀ o' ∈ os, 0 ≤ binAt label_exp r i j o' ∧ binAt label_exp r i j o' < (n : ℤ) :=
      fun o' ho' => hbin o' (List.mem_cons_of_mem o ho')
    by_cases hside : inRightHalf_fl64 slice_map ori o.1 o.2 = true
    · obtain ⟨h, hadd, hlen, hsum⟩ :=
        histAdd_sum st.2 (binAt label_exp r i j o) (weights.get o.1 o.2) hb0 (by omega)
      have hstep : histStep_fl64 label_exp weights slice_map r ori i j st o = some (st.1, h) := by
        unfold histStep_fl64
        dsimp only
        rw [if_pos hside]
        unfold binAt at hadd
        rw [hadd]
      obtain ⟨L, R, hloop, hL, hR, hLs, hRs⟩ := ih (st.1, h) hl (by rw [hlen, hr]) hrest
      refine ⟨L, R, ?_, hL, hR, ?_, ?_⟩
      · unfold histLoop_fl64
        rw [hstep]
        exact hloop
      · rw [hLs]
        simp [hside]
      · rw [hRs]
        dsimp only
        rw [hsum]
        simp [hside, add_assoc]
    · have hside' : inRightHalf_fl64 slice_map ori o.1 o.2 = false := by
        simpa using hside
      obtain ⟨h, hadd, hlen, hsum⟩ :=
        histAdd_sum st.1 (binAt label_exp r i j o) (weights.get o.1 o.2) hb0 (by omega)
      have hstep : histStep_fl64 label_exp weights slice_map r ori i j st o = some (h, st.2) := by
        unfold histStep_fl64
        dsimp only
        rw [if_neg hside]
        unfold binAt at hadd
        rw [hadd]
      obtain ⟨L, R, hloop, hL, hR, hLs, hRs⟩ := ih (h, st.2) (by rw [hlen, hl]) hr hrest
      refine ⟨L, R, ?_, hL, hR, ?_, ?_⟩
      · unfold histLoop_fl64
        rw [hstep]
        exact hloop
      · rw [hLs]
        dsimp only
        rw [hsum]
        simp [hside', add_assoc]
      · rw [hRs]
        simp [hside']

theorem sum_weights_congr (weights : Mat) (os : List (ℕ × ℕ)) (t t' : ℕ × ℕ → Bool) (b : Bool)
    (h : ∀ o ∈ os, weights.get o.1 o.2 ≠ 0 → t o = t' o) :
    (os.map fun o => if t o = b then weights.get o.1 o.2 else 0).sum =
      (os.map fun o => if t' o = b then weights.get o.1 o.2 else 0).sum := by
  congr 1
  apply List.map_congr_left
  intro o ho
  by_cases hw : weights.get o.1 o.2 = 0
  · rw [hw]
    simp
  · rw [h o ho hw]

theorem slice_compass (P : Prims)
    (h01 : P.atan2 0 1 = 0) (h02 : P.atan2 0 2 = 0)
    (h10 : P.atan2 1 0 = M_PI / 2) (h20 : P.atan2 2 0 = M_PI / 2)
    (h0m1 : P.atan2 0 (-1) = M_PI) (h0m2 : P.atan2 0 (-2) = M_PI)
    (hm10 : P.atan2 (-1) 0 = -(M_PI / 2)) (hm20 : P.atan2 (-2) 0 = -(M_PI / 2))
    (h11 : P.atan2 1 1 = M_PI / 4) (h1m1 : P.atan2 1 (-1) = 3 * M_PI / 4)
    (hm11 : P.atan2 (-1) 1 = -(M_PI / 4)) (hm1m1 : P.atan2 (-1) (-1) = -(3 * M_PI / 4))
    (n_ori : ℕ) (o : ℕ × ℕ) (ho : o ∈ discOffsets 2)
    (hw : (weight_matrix_disc 2).get o.1 o.2 ≠ 0) :
    (orientation_slice_map P 2 n_ori).get o.1 o.2 =
      (orientation_slice_map compassPrims 2 n_ori).get o.1 o.2 := by
  obtain ⟨hu, hv⟩ := mem_discOffsets.mp ho
  obtain ⟨u, v⟩ := o
  dsimp only at hu hv hw ⊢
  rw [slice_get P 2 n_ori u v hu hv, slice_get compassPrims 2 n_ori u v hu hv]
  rw [weights_get 2 u v hu hv] at hw
  interval_cases u <;> interval_cases v <;>
    first
    | (exfalso; revert hw; norm_num; done)
    | (norm_num [compassPrims, h01, h02, h10, h20, h0m1, h0m2, hm10, hm20, h11, h1m1, hm11,
        hm1m1])

/-- C23, at the orientation that the source computes for `n_ori = 52`,
`idx = 13`, with the disc of radius 2. The accumulated `double` sum of 13 steps
`180.0/52` is `45 - 2^-46` (the exact list has 45 there), and the `double`
subtraction `oris[idx]-180.0` rounds to `-135`. The disc has 12 offsets of
weight 1, at slice angles that are multiples of 45 degrees: with the values
that `libm`'s `atan2` returns on the eight compass directions, the quotient by
`M_PI`, the product by 180 and the store as `float` are all exact there. The
offset at 45 degrees fails `45 <= oris[idx]` and the offset at -135 degrees
fails `-135 > -135`, so both go to the left histogram: the left histogram
receives the total weight 7 and the right histogram 5, at every pixel whose
disc window holds valid labels. With the exact orientation 45 and the exact
subtraction each half carries 6. -/
theorem disc_halves_unbalanced (P : Prims)
    (h01 : P.atan2 0 1 = 0) (h02 : P.atan2 0 2 = 0)
    (h10 : P.atan2 1 0 = M_PI / 2) (h20 : P.atan2 2 0 = M_PI / 2)
    (h0m1 : P.atan2 0 (-1) = M_PI) (h0m2 : P.atan2 0 (-2) = M_PI)
    (hm10 : P.atan2 (-1) 0 = -(M_PI / 2)) (hm20 : P.atan2 (-2) 0 = -(M_PI / 2))
    (h11 : P.atan2 1 1 = M_PI / 4) (h1m1 : P.atan2 1 (-1) = 3 * M_PI / 4)
    (hm11 : P.atan2 (-1) 1 = -(M_PI / 4)) (hm1m1 : P.atan2 (-1) (-1) = -(3 * M_PI / 4)) :
    (standard_filter_orientations_fl64 52 DEG)[13]? = some (45 - 1 / 70368744177664) ∧
    (standard_filter_orientations 52 DEG)[13]? = some 45 ∧
    fl64 (45 - 1 / 70368744177664 - 180) = -135 ∧
    leftTotal_fl64 (weight_matrix_disc 2) (orientation_slice_map P 2 52) 2
      (45 - 1 / 70368744177664) = 7 ∧
    rightTotal_fl64 (weight_matrix_disc 2) (orientation_slice_map P 2 52) 2
      (45 - 1 / 70368744177664) = 5 ∧
    (∀ (label_exp : Mat) (i j n : ℕ),
      (∀ o ∈ discOffsets 2,
        0 ≤ binAt label_exp 2 i j o ∧ binAt label_exp 2 i j o < (n : ℤ)) →
      ∃ L R, histLoop_fl64 label_exp (weight_matrix_disc 2) (orientation_slice_map P 2 52) 2
          (45 - 1 / 70368744177664) i j (discOffsets 2)
          (List.replicate n 0, List.replicate n 0) = some (L, R) ∧
        L.sum = 7 ∧ R.sum = 5 ∧ L.sum ≠ R.sum) ∧
    leftTotal (weight_matrix_disc 2) (orientation_slice_map P 2 52) 2 45 = 6 ∧
    rightTotal (weight_matrix_disc 2) (orientation_slice_map P 2 52) 2 45 = 6 := by
  have hs : ∀ o ∈ discOffsets 2, (weight_matrix_disc 2).get o.1 o.2 ≠ 0 →
      (orientation_slice_map P 2 52).get o.1 o.2 =
        (orientation_slice_map compassPrims 2 52).get o.1 o.2 :=
    fun o ho hw => slice_compass P h01 h02 h10 h20 h0m1 h0m2 hm10 hm20 h11 h1m1 hm11 hm1m1
      52 o ho hw
  have hl : leftTotal_fl64 (weight_matrix_disc 2) (orientation_slice_map P 2 52) 2
      (45 - 1 / 70368744177664) = 7 := by
    have e : leftTotal_fl64 (weight_matrix_disc 2) (orientation_slice_map compassPrims 2 52) 2
        (45 - 1 / 70368744177664) = 7 := by decide!
    rw [← e]
    unfold leftTotal_fl64
    exact sum_weights_congr (weight_matrix_disc 2) (discOffsets 2)
      (fun o => inRightHalf_fl64 (orientation_slice_map P 2 52) (45 - 1 / 70368744177664)
        o.1 o.2)
      (fun o => inRightHalf_fl64 (orientation_slice_map compassPrims 2 52)
        (45 - 1 / 70368744177664) o.1 o.2) false
      (fun o ho hw => by
        dsimp only
        unfold inRightHalf_fl64
        rw [hs o ho hw])
  have hr : rightTotal_fl64 (weight_matrix_disc 2) (orientation_slice_map P 2 52) 2
      (45 - 1 / 70368744177664) = 5 := by
    have e : rightTotal_fl64 (weight_matrix_disc 2) (orientation_slice_map compassPrims 2 52) 2
        (45 - 1 / 70368744177664) = 5 := by decide!
    rw [← e]
    unfold rightTotal_fl64
    exact sum_weights_congr (weight_matrix_disc 2) (discOffsets 2)
      (fun o => inRightHalf_fl64 (orientation_slice_map P 2 52) (45 - 1 / 70368744177664)
        o.1 o.2)
      (fun o => inRightHalf_fl64 (orientation_slice_map compassPrims 2 52)
        (45 - 1 / 70368744177664) o.1 o.2) true
      (fun o ho hw => by
        dsimp only
        unfold inRightHalf_fl64
        rw [hs o ho hw])
  have hl0 : leftTotal (weight_matrix_disc 2) (orientation_slice_map P 2 52) 2 45 = 6 := by
    have e : leftTotal (weight_matrix_disc 2) (orientation_slice_map compassPrims 2 52) 2 45 =
        6 := by decide!
    rw [← e]
    unfold leftTotal
    exact sum_weights_congr (weight_matrix_disc 2) (discOffsets 2)
      (fun o => inRightHalf (orientation_slice_map P 2 52) 45 o.1 o.2)
      (fun o => inRightHalf (orientation_slice_map compassPrims 2 52) 45 o.1 o.2) false
      (fun o ho hw => by
        dsimp only
        unfold inRightHalf
        rw [hs o ho hw])
  have hr0 : rightTotal (weight_matrix_disc 2) (orientation_slice_map P 2 52) 2 45 = 6 := by
    have e : rightTotal (weight_matrix_disc 2) (orientation_slice_map compassPrims 2 52) 2 45 =
        6 := by decide!
    rw [← e]
    unfold rightTotal
    exact sum_weights_congr (weight_matrix_disc 2) (discOffsets 2)
      (fun o => inRightHalf (orientation_slice_map P 2 52) 45 o.1 o.2)
      (fun o => inRightHalf (orientation_slice_map compassPrims 2 52) 45 o.1 o.2) true
      (fun o ho hw => by
        dsimp only
        unfold inRightHalf
        rw [hs o ho hw])
  refine ⟨by decide!, by decide!, by decide!, hl, hr, ?_, hl0, hr0⟩
  intro label_exp i j n hbin
  obtain ⟨L, R, hloop, _, _, hLs, hRs⟩ :=
    histLoop_fl64_sums label_exp (weight_matrix_disc 2) (orientation_slice_map P 2 52) 2
      (45 - 1 / 70368744177664) i j n (discOffsets 2)
      (List.replicate n 0, List.replicate n 0) (by simp) (by simp) hbin
  have hL7 : L.sum = 7 := by
    rw [hLs]
    unfold leftTotal_fl64 at hl
    rw [hl]
    simp
  have hR5 : R.sum = 5 := by
    rw [hRs]
    unfold rightTotal_fl64 at hr
    rw [hr]
    simp
  exact ⟨L, R, hloop, hL7, hR5, by rw [hL7, hR5]; norm_num⟩

/-- C23 evaluated with the compass values of `atan2`, and the loop run at the
only pixel of a `1 × 1` label map with one bin. -/
theorem disc_halves_unbalanced_witness :
    histLoop_fl64 (reflectPad ⟨1, 1, [0]⟩ 2 2 2 2) (weight_matrix_disc 2)
        (orientation_slice_map compassPrims 2 52) 2 (45 - 1 / 70368744177664) 2 2
        (discOffsets 2) (List.replicate 1 0, List.replicate 1 0) = some ([7], [5]) ∧
    (standard_filter_orientations_fl64 52 DEG)[13]? = some (45 - 1 / 70368744177664) ∧
    (standard_filter_orientations 52 DEG)[13]? = some 45 ∧
    fl64 (45 - 1 / 70368744177664 - 180) = -135 ∧
    leftTotal_fl64 (weight_matrix_disc 2) (orientation_slice_map compassPrims 2 52) 2
      (45 - 1 / 70368744177664) = 7 ∧
    rightTotal_fl64 (weight_matrix_disc 2) (orientation_slice_map compassPrims 2 52) 2
      (45 - 1 / 70368744177664) = 5 ∧
    (∀ (label_exp : Mat) (i j n : ℕ),
      (∀ o ∈ discOffsets 2,
        0 ≤ binAt label_exp 2 i j o ∧ binAt label_exp 2 i j o < (n : ℤ)) →
      ∃ L R, histLoop_fl64 label_exp (weight_matrix_disc 2)
          (orientation_slice_map compassPrims 2 52) 2
          (45 - 1 / 70368744177664) i j (discOffsets 2)
          (List.replicate n 0, List.replicate n 0) = some (L, R) ∧
        L.sum = 7 ∧ R.sum = 5 ∧ L.sum ≠ R.sum) ∧
    leftTotal (weight_matrix_disc 2) (orientation_slice_map compassPrims 2 52) 2 45 = 6 ∧
    rightTotal (weight_matrix_disc 2) (orientation_slice_map compassPrims 2 52) 2 45 = 6 :=
  ⟨by decide!,
    disc_halves_unbalanced compassPrims (by decide!) (by decide!) (by decide!) (by decide!)
      (by decide!) (by decide!) (by decide!) (by decide!) (by decide!) (by decide!)
      (by decide!) (by decide!)⟩

/-- The centre of the disc window is its own image under the 180-degree
rotation; with `atan2(0, 0) = 0` its slice angle is 0, so for every orientation
in `[0, 180)` the slice test sends it to the right histogram, where it adds its
weight 0. -/
theorem centre_offset_right (P : Prims) (hc : P.atan2 0 0 = 0) (r n_ori : ℕ) (ori : ℚ)
    (h0 : 0 ≤ ori) (h180 : ori < 180) :
    rot180 r (r, r) = (r, r) ∧
    inRightHalf (orientation_slice_map P r n_ori) ori r r = true ∧
    (weight_matrix_disc r).get r r = 0 := by
  refine ⟨?_, ?_, weights_centre r⟩
  · unfold rot180
    apply Prod.ext <;> dsimp only <;> omega
  · rw [inRightHalf_iff, slice_get P r n_ori r r (by omega) (by omega)]
    have e1 : ((((r : ℤ) - (r : ℕ) : ℤ)) : ℚ) = 0 := by simp
    rw [e1, hc]
    constructor <;> norm_num <;> linarith

/-- The centre of the window of radius 2 at the orientation 45. -/
theorem centre_offset_right_witness :
    rot180 2 (2, 2) = (2, 2) ∧
    inRightHalf (orientation_slice_map samplePrims 2 4) 45 2 2 = true ∧
    (weight_matrix_disc 2).get 2 2 = 0 :=
  centre_offset_right samplePrims (by simp [samplePrims]) 2 4 45 (by norm_num) (by norm_num)

end GPb
